import Mathlib

/-!
Verification of the `xyz-jphil-jar_runner_java_javaw` launcher (`src/launcher.c`).

The launcher is a Windows C program.  We give a shallow embedding of the
string-manipulating core (base-52 cache-key encoding, AOT cache naming and
cleanup, internal-flag extraction and stripping, PATH search, config-file
parsing, console-mode detection, process supervision) as executable Lean
functions over `List Char`, and prove the specified properties about them.

Conventions of the embedding:
* C strings are `List Char`; a NUL terminator is implicit (end of list).
* Machine integers (`unsigned long long`) are `Nat`; the relevant theorems
  carry explicit `< 2^63` bounds where the specification mentions them.
* `snprintf`/`strncpy` truncation is modelled with `List.take` at the same
  buffer bounds as the source (`MAX_PATH` = 260, `MAX_CMD_LEN` = 32768).
* Filesystem state is passed explicitly (directory listings as lists of
  file names, attribute lookups as functions).
-/

/-! ## Basic C string operations (`strstr`, `strchr`, `trim`, `_stricmp`) -/

/-- Boolean test that `pat` is a prefix of `s` (character-wise). -/
def isPrefOf : List Char → List Char → Bool
  | [], _ => true
  | _ :: _, [] => false
  | a :: as, b :: bs => a = b && isPrefOf as bs

/-- Boolean test that `pat` is a suffix of `s`. -/
def isSuffOf (pat s : List Char) : Bool :=
  isPrefOf pat.reverse s.reverse

/-- Index of the first occurrence of `pat` in `s`, modelling C `strstr`
(which returns a pointer to the first occurrence or NULL). -/
def strstrIdx (pat : List Char) : List Char → Option Nat
  | [] => if isPrefOf pat [] then some 0 else none
  | c :: cs =>
    if isPrefOf pat (c :: cs) then some 0
    else (strstrIdx pat cs).map (· + 1)

/-- `pat` occurs somewhere in `s` (as a contiguous substring). -/
def occursB (pat s : List Char) : Bool :=
  (strstrIdx pat s).isSome

/-- Index of the first occurrence of character `c` in `s`, modelling C
`strchr`. -/
def strchrIdx (c : Char) : List Char → Option Nat
  | [] => none
  | x :: xs => if x = c then some 0 else (strchrIdx c xs).map (· + 1)

/-- Whitespace characters recognised by the launcher's `trim`. -/
def isWsChar (c : Char) : Bool :=
  c = ' ' || c = '\t' || c = '\r' || c = '\n'

/-- In-place `trim` from `launcher.c` (lines 131-151): drop leading and
trailing spaces/tabs/CR/LF. -/
def trimChars (s : List Char) : List Char :=
  (((s.dropWhile isWsChar).reverse.dropWhile isWsChar)).reverse

/-- The step `if (*argEnd == ' ') argEnd++;` used by the flag-removal code:
skip a single trailing space if present. -/
def dropOneSpace : List Char → List Char
  | ' ' :: t => t
  | s => s

/-- ASCII lower-casing, the behaviour of `_stricmp`'s per-character
comparison in the "C" locale. -/
def lowerChar (c : Char) : Char :=
  if 'A' ≤ c && c ≤ 'Z' then Char.ofNat (c.toNat + 32) else c

/-- Case-insensitive string equality (`_stricmp(a, b) == 0`). -/
def striEq (a b : List Char) : Bool :=
  a.map lowerChar = b.map lowerChar

/-- One splitting pass of `strtok(s, ";")`: split at every `;`. -/
def splitOnChar (c : Char) : List Char → List (List Char)
  | [] => [[]]
  | x :: xs =>
    match splitOnChar c xs with
    | [] => if x = c then [[], []] else [[x]]
    | h :: t => if x = c then [] :: h :: t else (x :: h) :: t

/-- `strtok` tokenisation with delimiter `;`: runs of delimiters yield no
empty tokens, matching `strtok`'s behaviour in `findJavaInPath`. -/
def splitSemis (s : List Char) : List (List Char) :=
  (splitOnChar ';' s).filter (fun t => t ≠ [])

/-! ## Base-52 encoding and AOT cache names (`launcher.c` lines 32-232) -/

/-- The encoding alphabet `BASE52_CHARS` from `launcher.c` line 34. -/
def BASE52_CHARS : List Char :=
  "0123456789ABCDEFGHJKLMNPQRSTUVWXYZabcdefghijkmnpqrstuvwxyz".data

/-- Look up one digit in the alphabet (`BASE52_CHARS[d]`). -/
def base52Digit (d : Nat) : Char :=
  BASE52_CHARS.getD d '0'

/-- The digit-collecting loop of `encodeBase52`
(`while (value > 0 && pos < 31) { temp[pos++] = ...; value /= 52; }`):
little-endian base-52 digits, at most `slots` of them. -/
def encodeLoop : Nat → Nat → List Nat
  | _, 0 => []
  | v, slots + 1 => if v = 0 then [] else v % 52 :: encodeLoop (v / 52) slots

/-- `encodeBase52` from `launcher.c` lines 154-177.  The `maxLen < 2` guard,
the special case for 0, the 31-slot digit buffer and the `maxLen - 1`
output truncation are all as in the source. -/
def encodeBase52 (value : Nat) (maxLen : Nat) : List Char :=
  if maxLen < 2 then []
  else if value = 0 then [base52Digit 0]
  else (((encodeLoop value 31).map base52Digit).reverse).take (maxLen - 1)

/-- Index of the last occurrence of `c` in `s`, modelling C `strrchr`. -/
def strrchrIdx (c : Char) (s : List Char) : Option Nat :=
  (strchrIdx c s.reverse).map (fun i => s.length - 1 - i)

/-- Split a path at the last path separator, as `buildAOTCacheName` and
`cleanupOldAOTFiles` do: `strrchr(path, '\\')`, falling back to
`strrchr(path, '/')`.  Returns `(dirPath, fileName)`; `dirPath` is empty
when there is no separator. -/
def splitLastSlash (p : List Char) : List Char × List Char :=
  match strrchrIdx '\\' p with
  | some i => (p.take i, p.drop (i + 1))
  | none =>
    match strrchrIdx '/' p with
    | some i => (p.take i, p.drop (i + 1))
    | none => ([], p)

/-- Drop the extension at the last dot (`dotPos = strrchr(baseName, '.');
if (dotPos) *dotPos = '\0';`). -/
def dropLastDotExt (s : List Char) : List Char :=
  match strrchrIdx '.' s with
  | some i => s.take i
  | none => s

/-- The cache file name `<base>.<encodedSize>.<encodedModTime>.aot` built
by `buildAOTCacheName` (name part only; `sizeof(sizeStr) == 32`). -/
def cacheFileName (base : List Char) (size modTime : Nat) : List Char :=
  base ++ '.' :: encodeBase52 size 32 ++ '.' :: encodeBase52 modTime 32
    ++ ".aot".data

/-- `buildAOTCacheName` from `launcher.c` lines 191-232, for a target whose
`_stat64` succeeded with the given size and modification time.  The
`snprintf` into a `MAX_PATH`-sized buffer truncates at 259 characters. -/
def buildAOTCacheName (jarPath : List Char) (size modTime : Nat) : List Char :=
  let dirPath := (splitLastSlash jarPath).1
  let baseName := dropLastDotExt (splitLastSlash jarPath).2
  let name := cacheFileName baseName size modTime
  (if dirPath ≠ [] then dirPath ++ '\\' :: name else name).take 259

/-! ## AOT cache cleanup and reuse decision (`launcher.c` lines 235-286,
main lines 964-985) -/

/-- Modelled from the spec: the wildcard match performed by Windows
`FindFirstFileA`/`FindNextFileA` for the pattern `<baseName>.*.aot` built at
`launcher.c` line 259 (the API itself is outside `src/`).  A name matches
iff, case-insensitively, it starts with `<baseName>.` and ends with `.aot`
after that prefix. -/
def matchesAotPat (base f : List Char) : Bool :=
  isPrefOf ((base ++ ['.']).map lowerChar) (f.map lowerChar) &&
    isSuffOf (".aot".data.map lowerChar) ((f.map lowerChar).drop (base.length + 1))

/-- `cleanupOldAOTFiles` (`launcher.c` lines 235-286) acting on a directory
listing: every file matching `<base>.*.aot` whose name differs
(`_stricmp != 0`) from the current cache file name is deleted; the result is
the listing after the deletions. -/
def cleanupOldAOTFiles (listing : List (List Char)) (base cur : List Char) :
    List (List Char) :=
  listing.filter (fun f => !(matchesAotPat base f && !striEq f cur))

/-- The cache flag chosen by `main` (`launcher.c` lines 964-985): consume an
existing cache (`-XX:AOTCache=`) or produce a new one
(`-XX:AOTCacheOutput=`). -/
inductive AotFlag where
  | consume (name : List Char)
  | produce (name : List Char)
deriving DecidableEq

/-- The cleanup-then-probe sequence of `main` with caching enabled
(`launcher.c` lines 969-983): clean up stale files, then check whether the
current cache file exists (a case-insensitive name lookup, as
`GetFileAttributesA` is case-insensitive) and pick the flag. -/
def aotDecision (listing : List (List Char)) (base cur : List Char) : AotFlag :=
  let l2 := cleanupOldAOTFiles listing base cur
  if l2.any (fun f => striEq f cur) then .consume cur else .produce cur

/-- The directory listing after the run: the launcher deleted stale files;
if no cache existed the spawned runtime writes the cache file named `cur`
(`-XX:AOTCacheOutput`). -/
def postRunListing (listing : List (List Char)) (base cur : List Char) :
    List (List Char) :=
  let l2 := cleanupOldAOTFiles listing base cur
  match aotDecision listing base cur with
  | .consume _ => l2
  | .produce _ => l2 ++ [cur]

/-! ## Internal flag extraction and stripping (`launcher.c` lines 508-592,
828-848, 917-936) -/

/-- The flag substrings searched for by the launcher. -/
def JH : List Char := "--java-home".data

/-- The `name=value` form prefix `--java-home=`. -/
def JHE : List Char := "--java-home=".data

/-- The `--java-home ` (space form) search key used by `extractJavaHome`. -/
def JHSP : List Char := "--java-home ".data

/-- The `--enable-aot` flag. -/
def EN : List Char := "--enable-aot".data

/-- The `--disable-aot` flag. -/
def DA : List Char := "--disable-aot".data

/-- The value extraction of `extractJavaHome`'s equals-form branch
(`launcher.c` lines 529-556): a leading quote selects the text up to the
closing quote (NULL, modelled `none`, if unterminated); otherwise the text
up to the next space. -/
def takeEqValue (after : List Char) : Option (List Char) :=
  match after with
  | '"' :: t =>
    match strchrIdx '"' t with
    | some j => some (t.take j)
    | none => none
  | other => some (other.takeWhile (fun c => c ≠ ' '))

/-- `extractJavaHome` from `launcher.c` lines 508-557.  It first looks for
`--java-home=` (handling a quoted value there); failing that it looks for
`--java-home ` and takes the value up to the next space, with no quote
handling in that branch. -/
def extractJavaHome (cmdLine : List Char) : Option (List Char) :=
  match strstrIdx JHE cmdLine with
  | some i => takeEqValue (cmdLine.drop (i + 12))
  | none =>
    match strstrIdx JHSP cmdLine with
    | some i => some ((cmdLine.drop (i + 12)).takeWhile (fun c => c ≠ ' '))
    | none => none

/-- The value-skipping step shared by both branches of `removeJavaHomeArg`
(`launcher.c` lines 568-584): a quoted value is skipped to just past its
closing quote, an unquoted one to the next space.  When a quoted value has
no closing quote the source dereferences a NULL pointer (undefined
behaviour); that unreachable branch is modelled as deleting to the end of
the string. -/
def skipValueEnd (x : List Char) : List Char :=
  match x with
  | '"' :: t =>
    match strchrIdx '"' t with
    | some j => t.drop (j + 1)
    | none => []
  | other => other.dropWhile (fun c => c ≠ ' ')

/-- `removeJavaHomeArg` from `launcher.c` lines 560-592: find the first
occurrence of `--java-home`, skip over the flag and its value (quoted or
unquoted, `=` form or space form), skip one trailing space, and splice the
remainder over the flag. -/
def removeJavaHomeArg (s : List Char) : List Char :=
  match strstrIdx JH s with
  | none => s
  | some i =>
    let pre := s.take i
    let suf := s.drop i
    let rest :=
      if isPrefOf JHE suf then skipValueEnd (suf.drop 12)
      else skipValueEnd ((suf.drop 11).dropWhile (fun c => c = ' '))
    pre ++ dropOneSpace rest

/-- The AOT-flag removal idiom of `main` (`launcher.c` lines 833-844 and
923-936): remove the first occurrence of `pat` and one following space. -/
def removeFirstSub (pat : List Char) (s : List Char) : List Char :=
  match strstrIdx pat s with
  | none => s
  | some i => s.take i ++ dropOneSpace (s.drop (i + pat.length))

/-- The config-mode stripping pass (`launcher.c` lines 828-845):
`removeJavaHomeArg`, then first `--disable-aot`, then first `--enable-aot`,
then `trim`. -/
def stripFlagsConfig (s : List Char) : List Char :=
  trimChars (removeFirstSub EN (removeFirstSub DA (removeJavaHomeArg s)))

/-- The traditional-mode stripping pass (`launcher.c` lines 917-936):
`removeJavaHomeArg`, then each AOT flag is removed (with a `trim`) only when
`strstr` finds it. -/
def stripFlagsTraditional (s : List Char) : List Char :=
  let s1 := removeJavaHomeArg s
  let s2 := match strstrIdx DA s1 with
    | none => s1
    | some _ => trimChars (removeFirstSub DA s1)
  match strstrIdx EN s2 with
  | none => s2
  | some _ => trimChars (removeFirstSub EN s2)

/-! ## Traditional-mode composition and the missing-target gate
(`launcher.c` lines 872-994) -/

/-- The final command of traditional mode (`launcher.c` lines 987-994):
`"<javaPath>" <timingProps> [<aotArg>] -jar <strippedArgs>`, `snprintf`-ed
into a `MAX_CMD_LEN` buffer (truncation at 32767). -/
def composeTraditionalCmd (javaPath timingProps aotArg strippedArgs : List Char) :
    List Char :=
  (if aotArg ≠ [] then
    '"' :: javaPath ++ "\" ".data ++ timingProps ++ ' ' :: aotArg
      ++ " -jar ".data ++ strippedArgs
  else
    '"' :: javaPath ++ "\" ".data ++ timingProps ++ " -jar ".data
      ++ strippedArgs).take 32767

/-- Outcome of the traditional-mode branch of `main`. -/
inductive TradAction where
  | showHelpExit1
  | spawn (cmd : List Char)
deriving DecidableEq

/-- The traditional-mode branch of `main` (`launcher.c` lines 872-994) given
the raw argument substring that follows the executable name.  The
empty-check at line 889 runs on the raw arguments, before any flag
stripping; `aotArg` stands for the cache flag computed from the filesystem
(empty when caching is disabled or unavailable). -/
def traditionalAction (javaPath timingProps aotArg rawArgs : List Char) :
    TradAction :=
  let jarArgs := rawArgs.dropWhile (fun c => c = ' ')
  if jarArgs = [] then .showHelpExit1
  else .spawn (composeTraditionalCmd javaPath timingProps aotArg
    (stripFlagsTraditional jarArgs))

/-- The exit code the launcher returns without spawning, when the action is
the help/diagnostic path (`launcher.c` line 914: `return 1`). -/
def tradActionNoSpawnExit : TradAction → Option Nat
  | .showHelpExit1 => some 1
  | .spawn _ => none

/-! ## Runtime location (`launcher.c` lines 289-320, 734-770) -/

/-- Abstraction of `GetFileAttributesA`: a path is missing
(`INVALID_FILE_ATTRIBUTES`), a directory, or a regular file. -/
inductive FileAttr where
  | missing
  | directory
  | regular
deriving DecidableEq

/-- The test `attrib != INVALID_FILE_ATTRIBUTES && !(attrib &
FILE_ATTRIBUTE_DIRECTORY)` used by both the override check and the PATH
scan. -/
def isRegularB (fs : List Char → FileAttr) (p : List Char) : Bool :=
  fs p = FileAttr.regular

/-- The scanning loop of `findJavaInPath`: try each PATH token in order,
forming `<token>\<exeName>` (`snprintf` into a `MAX_PATH` buffer, truncation
at 259), and return the first existing non-directory hit. -/
def findJavaScan (exeName : List Char) (fs : List Char → FileAttr) :
    List (List Char) → Option (List Char)
  | [] => none
  | t :: ts =>
    let testPath := (t ++ '\\' :: exeName).take 259
    if isRegularB fs testPath then some testPath else findJavaScan exeName fs ts

/-- `findJavaInPath` from `launcher.c` lines 289-320: tokenize `PATH` at
`;` with `strtok` and scan; `NULL` PATH yields failure. -/
def findJavaInPath (exeName : List Char) (pathEnv : Option (List Char))
    (fs : List Char → FileAttr) : Option (List Char) :=
  match pathEnv with
  | none => none
  | some pe => findJavaScan exeName fs (splitSemis pe)

/-- The runtime-resolution step of `main` (`launcher.c` lines 734-770): with
a `--java-home` override, build `<home>\bin\<exeName>` (`snprintf` into a
`MAX_PATH` buffer) and require it to be an existing non-directory file, with
no fallback; otherwise scan `PATH`. -/
def resolveRuntime (javaHome : Option (List Char)) (exeName : List Char)
    (pathEnv : Option (List Char)) (fs : List Char → FileAttr) :
    Option (List Char) :=
  match javaHome with
  | some h =>
    let p := (h ++ "\\bin\\".data ++ exeName).take 259
    if isRegularB fs p then some p else none
  | none => findJavaInPath exeName pathEnv fs

/-- What `main` does with the resolution result: on failure it shows the
"Java Not Found" message and returns 1 without spawning. -/
inductive LocateOutcome where
  | runtimeNotFoundExit1
  | located (p : List Char)
deriving DecidableEq

/-- The control flow of `main` around runtime resolution
(`launcher.c` lines 736-770). -/
def locatePhase (javaHome : Option (List Char)) (exeName : List Char)
    (pathEnv : Option (List Char)) (fs : List Char → FileAttr) :
    LocateOutcome :=
  match resolveRuntime javaHome exeName pathEnv fs with
  | none => .runtimeNotFoundExit1
  | some p => .located p

/-! ## Configuration file parsing (`launcher.c` lines 376-437, 786-790) -/

/-- The `LauncherConfig` structure from `launcher.c` lines 14-22.
`enableAOT` keeps the source's `int` encoding: 1 = yes, 0 = no,
-1 = not specified. -/
structure LauncherConfig where
  vmArgs : List Char
  javaArgs : List Char
  appArgs : List Char
  logFile : List Char
  logLevel : List Char
  logOverwrite : Bool
  enableAOT : Int
deriving DecidableEq

/-- The defaults installed by `parseConfigFile` before reading lines
(`launcher.c` lines 385-388). -/
def defaultConfig : LauncherConfig :=
  { vmArgs := [], javaArgs := [], appArgs := [], logFile := []
    logLevel := "info".data, logOverwrite := false, enableAOT := -1 }

/-- The boolean-like value parse used for `log.overwrite` and `aot`
(`_stricmp(value, "true") == 0 || strcmp(value, "1") == 0`). -/
def parseTrueish (v : List Char) : Bool :=
  striEq v "true".data || v = "1".data

/-- The matching `false` test (`_stricmp(value, "false") == 0 ||
strcmp(value, "0") == 0`). -/
def parseFalseish (v : List Char) : Bool :=
  striEq v "false".data || v = "0".data

/-- The comment test `*line == '#'` on the trimmed line. -/
def startsHash : List Char → Bool
  | '#' :: _ => true
  | _ => false

/-- Processing of one config line (`launcher.c` lines 391-433): trim, skip
empties and `#` comments, split at the first `=`, trim key and value, then
case-insensitive key dispatch.  `strncpy` into the fixed buffers truncates
(`MAX_CMD_LEN - 1` for the args fields, `MAX_PATH - 1` = 259 for
`log.file`, 31 for `log.level`). -/
def applyConfigLine (cfg : LauncherConfig) (line : List Char) : LauncherConfig :=
  let l := trimChars line
  if l = [] then cfg
  else if startsHash l then cfg
  else
    match strchrIdx '=' l with
    | none => cfg
    | some i =>
      let key := trimChars (l.take i)
      let value := trimChars (l.drop (i + 1))
      if striEq key "vm.args".data then { cfg with vmArgs := value.take 32767 }
      else if striEq key "java.args".data then
        { cfg with javaArgs := value.take 32767 }
      else if striEq key "app.args".data then
        { cfg with appArgs := value.take 32767 }
      else if striEq key "log.file".data then
        { cfg with logFile := value.take 259 }
      else if striEq key "log.level".data then
        { cfg with logLevel := value.take 31 }
      else if striEq key "log.overwrite".data then
        { cfg with logOverwrite := parseTrueish value }
      else if striEq key "aot".data then
        (if parseTrueish value then { cfg with enableAOT := 1 }
         else if parseFalseish value then { cfg with enableAOT := 0 }
         else cfg)
      else cfg

/-- `parseConfigFile`'s line loop (`launcher.c` lines 390-433) over the
file's lines. -/
def parseConfigLines (lines : List (List Char)) : LauncherConfig :=
  lines.foldl applyConfigLine defaultConfig

/-- `parseConfigFile` (`launcher.c` lines 378-437) on an optional file:
`fopen` failure (`none`, the sidecar is missing) returns no config, which is
not an error; otherwise the parsed config. -/
def parseConfigFile (file : Option (List (List Char))) : Option LauncherConfig :=
  file.map parseConfigLines

/-- The mode selection of `main` (`launcher.c` line 786:
`if (useConfig && config.javaArgs[0])`): configuration mode is used exactly
when the sidecar was opened and its `java.args` is non-empty. -/
def selectConfigMode (file : Option (List (List Char))) : Bool :=
  match parseConfigFile file with
  | none => false
  | some cfg => cfg.javaArgs ≠ []

/-- Spec-side description (for comparison): whether one line is a
`java.args` assignment, and its trimmed value. -/
def jaLineValue (line : List Char) : Option (List Char) :=
  let l := trimChars line
  if l = [] then none
  else if startsHash l then none
  else
    match strchrIdx '=' l with
    | none => none
    | some i =>
      if striEq (trimChars (l.take i)) "java.args".data then
        some (trimChars (l.drop (i + 1)))
      else none

/-- One step of the last-write-wins fold over `java.args` lines. -/
def jaStep (acc : Option (List Char)) (line : List Char) : Option (List Char) :=
  match jaLineValue line with
  | some v => some v
  | none => acc

/-- Spec-side description (for comparison): the value of the last
`java.args` line of the file, trimmed, as assigned by the parser. -/
def lastJavaArgsValue (lines : List (List Char)) : Option (List Char) :=
  lines.foldl jaStep none

/-! ## Execution-context detection (`launcher.c` lines 324-355) -/

/-- The observable Win32 console actions performed by `isGuiMode`. -/
inductive ConsoleEvent where
  | hideWindow
  | freeConsole
  | attachParent
  | showWindow
deriving DecidableEq

/-- `isGuiMode` from `launcher.c` lines 324-355 as a trace function.
`hasWnd0`: `GetConsoleWindow()` non-NULL at entry; `attachOk`:
`AttachConsole(ATTACH_PARENT_PROCESS)` succeeded; `hasWnd1`:
`GetConsoleWindow()` non-NULL after attaching.  Returns the ordered list of
console actions and the boolean result (`TRUE` = GUI mode). -/
def isGuiMode (hasWnd0 attachOk hasWnd1 : Bool) : List ConsoleEvent × Bool :=
  let t0 := if hasWnd0 then [ConsoleEvent.hideWindow] else []
  let t1 := t0 ++ [ConsoleEvent.freeConsole, ConsoleEvent.attachParent]
  if attachOk then
    (t1 ++ (if hasWnd1 then [ConsoleEvent.showWindow] else []), false)
  else
    (t1, true)

/-! ## Process supervision (`launcher.c` lines 999-1057) -/

/-- The observable supervision events after composing the command. -/
inductive SupEvent where
  | createProcess
  | waitForChild
  | getExitCode
deriving DecidableEq

/-- The tail of `main` (`launcher.c` lines 1014-1057): spawn; in console
mode wait for the child and return its exit code; in GUI mode return 0
immediately; on spawn failure return 1.  `childExit` is the `DWORD` exit
code of the child (`< 2^32`). -/
def superviseProcess (hasConsole spawnOk : Bool) (childExit : Nat) :
    List SupEvent × Nat :=
  if spawnOk then
    if hasConsole then
      ([SupEvent.createProcess, SupEvent.waitForChild, SupEvent.getExitCode],
        childExit % 2 ^ 32)
    else
      ([SupEvent.createProcess], 0)
  else
    ([SupEvent.createProcess], 1)

/-! ## Lemmas: base-52 encoding -/

theorem encodeLoop_eq_nil_iff (v slots : Nat) (h : slots ≠ 0) :
    encodeLoop v slots = [] ↔ v = 0 := by
  cases slots with
  | zero => exact absurd rfl h
  | succ s =>
    simp only [encodeLoop]
    by_cases hv : v = 0 <;> simp [hv]

theorem encodeLoop_length_le (slots : Nat) :
    ∀ k v, v < 52 ^ k → (encodeLoop v slots).length ≤ k := by
  induction slots with
  | zero => intro k v _; simp [encodeLoop]
  | succ s ih =>
    intro k v hv
    simp only [encodeLoop]
    by_cases h0 : v = 0
    · simp [h0]
    · simp only [h0, if_false, List.length_cons]
      cases k with
      | zero =>
        exfalso
        exact h0 (Nat.lt_one_iff.mp (by simpa using hv))
      | succ k' =>
        have hdiv : v / 52 < 52 ^ k' := by
          have : v < 52 * 52 ^ k' := by
            simpa [Nat.pow_succ, Nat.mul_comm] using hv
          exact Nat.div_lt_of_lt_mul this
        exact Nat.succ_le_succ (ih k' (v / 52) hdiv)

theorem encodeLoop_inj (slots : Nat) :
    ∀ a b, a < 52 ^ slots → b < 52 ^ slots →
      encodeLoop a slots = encodeLoop b slots → a = b := by
  induction slots with
  | zero =>
    intro a b ha hb _
    simp only [pow_zero, Nat.lt_one_iff] at ha hb
    omega
  | succ s ih =>
    intro a b ha hb heq
    simp only [encodeLoop] at heq
    by_cases h0 : a = 0 <;> by_cases h1 : b = 0
    · omega
    · simp [h0, h1] at heq
    · simp [h0, h1] at heq
    · simp only [h0, h1, if_false, List.cons.injEq] at heq
      obtain ⟨hmod, htail⟩ := heq
      have hda : a / 52 < 52 ^ s := by
        have : a < 52 * 52 ^ s := by simpa [Nat.pow_succ, Nat.mul_comm] using ha
        exact Nat.div_lt_of_lt_mul this
      have hdb : b / 52 < 52 ^ s := by
        have : b < 52 * 52 ^ s := by simpa [Nat.pow_succ, Nat.mul_comm] using hb
        exact Nat.div_lt_of_lt_mul this
      have hdiv := ih (a / 52) (b / 52) hda hdb htail
      have := Nat.div_add_mod a 52
      have := Nat.div_add_mod b 52
      omega

theorem encodeLoop_mem_lt (slots : Nat) :
    ∀ v d, d ∈ encodeLoop v slots → d < 52 := by
  induction slots with
  | zero => intro v d h; simp [encodeLoop] at h
  | succ s ih =>
    intro v d h
    simp only [encodeLoop] at h
    by_cases h0 : v = 0
    · simp [h0] at h
    · simp only [h0, if_false, List.mem_cons] at h
      rcases h with h | h
      · subst h; exact Nat.mod_lt _ (by norm_num)
      · exact ih _ _ h

theorem base52Digit_inj_lt :
    ∀ a b : Fin 52, base52Digit a.val = base52Digit b.val → a = b := by decide

theorem getD_default_or_mem (l : List Char) (n : Nat) (d : Char) :
    l.getD n d = d ∨ l.getD n d ∈ l := by
  induction l generalizing n with
  | nil => left; rfl
  | cons x xs ih =>
    cases n with
    | zero => right; simp [List.getD]
    | succ m =>
      rcases ih m with h | h
      · left; simpa [List.getD] using h
      · right; simp only [List.getD] at h ⊢
        simpa using Or.inr h

theorem base52Digit_ne_dot (d : Nat) : base52Digit d ≠ '.' := by
  unfold base52Digit
  rcases getD_default_or_mem BASE52_CHARS d '0' with h | h
  · rw [h]; decide
  · rw [show ('.' : Char) = '.' from rfl]
    intro hc
    have : ('.' : Char) ∈ BASE52_CHARS := hc ▸ h
    revert this; decide

theorem two_pow_63_le : (2 : Nat) ^ 63 ≤ 52 ^ 12 := by norm_num

theorem encodeBase52_length_le (v : Nat) (hv : v < 2 ^ 63) :
    (encodeBase52 v 32).length ≤ 12 := by
  unfold encodeBase52
  by_cases h0 : v = 0
  · simp [h0]
  · have hlen : (encodeLoop v 31).length ≤ 12 :=
      encodeLoop_length_le 31 12 v (lt_of_lt_of_le hv two_pow_63_le)
    simp only [show ¬(32 < 2) by norm_num, if_false, h0, List.length_take,
      List.length_reverse, List.length_map]
    omega

theorem encodeBase52_take_31 (v : Nat) (hv : v < 2 ^ 63) (h0 : v ≠ 0) :
    encodeBase52 v 32 = ((encodeLoop v 31).map base52Digit).reverse := by
  unfold encodeBase52
  have hlen : (encodeLoop v 31).length ≤ 12 :=
    encodeLoop_length_le 31 12 v (lt_of_lt_of_le hv two_pow_63_le)
  simp only [show ¬(32 < 2) by norm_num, if_false, h0]
  apply List.take_of_length_le
  simp only [List.length_reverse, List.length_map]
  omega

theorem map_base52Digit_inj :
    ∀ l1 l2 : List Nat, (∀ d ∈ l1, d < 52) → (∀ d ∈ l2, d < 52) →
      l1.map base52Digit = l2.map base52Digit → l1 = l2 := by
  intro l1
  induction l1 with
  | nil => intro l2 _ _ h; cases l2 <;> simp_all
  | cons x xs ih =>
    intro l2 h1 h2 h
    cases l2 with
    | nil => simp at h
    | cons y ys =>
      simp only [List.map_cons, List.cons.injEq] at h
      obtain ⟨hx, hxs⟩ := h
      have hx52 : x < 52 := h1 x (by simp)
      have hy52 : y < 52 := h2 y (by simp)
      have : (⟨x, hx52⟩ : Fin 52) = ⟨y, hy52⟩ :=
        base52Digit_inj_lt ⟨x, hx52⟩ ⟨y, hy52⟩ hx
      have hxy : x = y := by simpa using congrArg Fin.val this
      subst hxy
      exact congrArg (x :: ·)
        (ih ys (fun d hd => h1 d (by simp [hd])) (fun d hd => h2 d (by simp [hd])) hxs)

theorem encodeBase52_inj (a b : Nat) (ha : a < 2 ^ 63) (hb : b < 2 ^ 63)
    (h : encodeBase52 a 32 = encodeBase52 b 32) : a = b := by
  by_cases h0 : a = 0 <;> by_cases h1 : b = 0
  · omega
  · exfalso
    rw [h0] at h
    rw [encodeBase52_take_31 b hb h1] at h
    have hb' : encodeBase52 0 32 = [base52Digit 0] := by rfl
    rw [hb'] at h
    have := congrArg List.reverse h
    simp only [List.reverse_reverse] at this
    have hmap : (encodeLoop b 31).map base52Digit = [base52Digit 0] := this.symm
    have : encodeLoop b 31 = [0] := by
      apply map_base52Digit_inj _ [0]
        (fun d hd => encodeLoop_mem_lt 31 b d hd)
        (by intro d hd; simp at hd; omega)
      simpa using hmap
    have hb0 : b % 52 = 0 ∧ encodeLoop (b / 52) 30 = [] := by
      have hx := this
      simp only [encodeLoop, h1, if_false, List.cons.injEq] at hx
      exact hx
    have : b / 52 = 0 := (encodeLoop_eq_nil_iff _ 30 (by norm_num)).mp hb0.2
    have := Nat.div_add_mod b 52
    omega
  · exfalso
    rw [h1] at h
    rw [encodeBase52_take_31 a ha h0] at h
    have ha' : encodeBase52 0 32 = [base52Digit 0] := by rfl
    rw [ha'] at h
    have := congrArg List.reverse h
    simp only [List.reverse_reverse] at this
    have hmap : (encodeLoop a 31).map base52Digit = [base52Digit 0] := this
    have : encodeLoop a 31 = [0] := by
      apply map_base52Digit_inj _ [0]
        (fun d hd => encodeLoop_mem_lt 31 a d hd)
        (by intro d hd; simp at hd; omega)
      simpa using hmap
    have ha0 : a % 52 = 0 ∧ encodeLoop (a / 52) 30 = [] := by
      have hx := this
      simp only [encodeLoop, h0, if_false, List.cons.injEq] at hx
      exact hx
    have : a / 52 = 0 := (encodeLoop_eq_nil_iff _ 30 (by norm_num)).mp ha0.2
    have := Nat.div_add_mod a 52
    omega
  · rw [encodeBase52_take_31 a ha h0, encodeBase52_take_31 b hb h1] at h
    have h' := List.reverse_injective h
    have hloop : encodeLoop a 31 = encodeLoop b 31 :=
      map_base52Digit_inj _ _ (fun d hd => encodeLoop_mem_lt 31 a d hd)
        (fun d hd => encodeLoop_mem_lt 31 b d hd) h'
    have h52 : (52 : Nat) ^ 12 ≤ 52 ^ 31 :=
      Nat.pow_le_pow_right (by norm_num) (by norm_num)
    exact encodeLoop_inj 31 a b
      (lt_of_lt_of_le ha (le_trans two_pow_63_le h52))
      (lt_of_lt_of_le hb (le_trans two_pow_63_le h52)) hloop

theorem mem_encodeBase52_ne_dot (v m : Nat) (c : Char)
    (hc : c ∈ encodeBase52 v m) : c ≠ '.' := by
  unfold encodeBase52 at hc
  by_cases h2 : m < 2
  · simp [h2] at hc
  · by_cases h0 : v = 0
    · simp only [h2, if_false, h0, if_true, List.mem_singleton] at hc
      subst hc; exact base52Digit_ne_dot 0
    · simp only [h2, if_false, h0] at hc
      have := List.mem_of_mem_take hc
      have := List.mem_reverse.mp this
      obtain ⟨d, _, hd⟩ := List.mem_map.mp this
      subst hd; exact base52Digit_ne_dot d

/-! ## Lemmas: cache-name structure -/

theorem splitAtDot (a : List Char) :
    ∀ (b r r' : List Char), (∀ c ∈ a, c ≠ '.') → (∀ c ∈ b, c ≠ '.') →
      a ++ '.' :: r = b ++ '.' :: r' → a = b ∧ r = r' := by
  induction a with
  | nil =>
    intro b r r' _ hb h
    cases b with
    | nil => simpa using h
    | cons y ys =>
      exfalso
      simp only [List.nil_append, List.cons_append, List.cons.injEq] at h
      exact hb y (by simp) h.1.symm
  | cons x xs ih =>
    intro b r r' ha hb h
    cases b with
    | nil =>
      exfalso
      simp only [List.cons_append, List.nil_append, List.cons.injEq] at h
      exact ha x (by simp) h.1
    | cons y ys =>
      simp only [List.cons_append, List.cons.injEq] at h
      obtain ⟨hxy, hrest⟩ := h
      have := ih ys r r' (fun c hc => ha c (by simp [hc]))
        (fun c hc => hb c (by simp [hc])) hrest
      exact ⟨by rw [hxy, this.1], this.2⟩

theorem splitLastSlash_length (p : List Char) :
    (splitLastSlash p).1.length + (splitLastSlash p).2.length ≤ p.length := by
  unfold splitLastSlash
  rcases h1 : strrchrIdx '\\' p with _ | i
  · rcases h2 : strrchrIdx '/' p with _ | j
    · simp
    · simp only [List.length_take, List.length_drop]
      omega
  · simp only [List.length_take, List.length_drop]
    omega

theorem dropLastDotExt_length_le (s : List Char) :
    (dropLastDotExt s).length ≤ s.length := by
  unfold dropLastDotExt
  rcases strrchrIdx '.' s with _ | i
  · exact le_refl _
  · simp only [List.length_take]
    omega

theorem cacheFileName_length (base : List Char) (s m : Nat)
    (hs : s < 2 ^ 63) (hm : m < 2 ^ 63) :
    (cacheFileName base s m).length ≤ base.length + 31 := by
  have h1 := encodeBase52_length_le s hs
  have h2 := encodeBase52_length_le m hm
  simp only [cacheFileName, List.length_append, List.length_cons,
    List.length_nil]
  omega

theorem buildAOTCacheName_no_trunc (jarPath : List Char) (s m : Nat)
    (hs : s < 2 ^ 63) (hm : m < 2 ^ 63) (hlen : jarPath.length ≤ 220) :
    buildAOTCacheName jarPath s m =
      (if (splitLastSlash jarPath).1 ≠ [] then
        (splitLastSlash jarPath).1 ++
          '\\' :: cacheFileName (dropLastDotExt (splitLastSlash jarPath).2) s m
      else cacheFileName (dropLastDotExt (splitLastSlash jarPath).2) s m) := by
  have hsplit := splitLastSlash_length jarPath
  have hdrop := dropLastDotExt_length_le (splitLastSlash jarPath).2
  have hname := cacheFileName_length (dropLastDotExt (splitLastSlash jarPath).2)
    s m hs hm
  simp only [buildAOTCacheName]
  apply List.take_of_length_le
  split_ifs with hd
  · simp only [List.length_append, List.length_cons]
    omega
  · omega

/-- Helper: normalised form of `cacheFileName` as nested dot-separated
segments. -/
theorem cacheFileName_assoc (base : List Char) (s m : Nat) :
    cacheFileName base s m =
      base ++ '.' :: (encodeBase52 s 32 ++ '.' :: (encodeBase52 m 32 ++
        ".aot".data)) := by
  simp [cacheFileName]

theorem cacheFileName_inj (base : List Char) (s1 m1 s2 m2 : Nat)
    (hs1 : s1 < 2 ^ 63) (hm1 : m1 < 2 ^ 63) (hs2 : s2 < 2 ^ 63)
    (hm2 : m2 < 2 ^ 63)
    (h : cacheFileName base s1 m1 = cacheFileName base s2 m2) :
    s1 = s2 ∧ m1 = m2 := by
  rw [cacheFileName_assoc, cacheFileName_assoc] at h
  have h1 := List.append_cancel_left h
  have h2 : encodeBase52 s1 32 ++ '.' :: (encodeBase52 m1 32 ++ ".aot".data) =
      encodeBase52 s2 32 ++ '.' :: (encodeBase52 m2 32 ++ ".aot".data) := by
    simpa using h1
  have hsz := splitAtDot (encodeBase52 s1 32) (encodeBase52 s2 32) _ _
    (fun c hc => mem_encodeBase52_ne_dot s1 32 c hc)
    (fun c hc => mem_encodeBase52_ne_dot s2 32 c hc) h2
  have hs := encodeBase52_inj s1 s2 hs1 hs2 hsz.1
  have h3 : encodeBase52 m1 32 ++ '.' :: "aot".data =
      encodeBase52 m2 32 ++ '.' :: "aot".data := by
    have := hsz.2
    simpa [show (".aot".data = '.' :: "aot".data) from rfl] using this
  have hmz := splitAtDot (encodeBase52 m1 32) (encodeBase52 m2 32) _ _
    (fun c hc => mem_encodeBase52_ne_dot m1 32 c hc)
    (fun c hc => mem_encodeBase52_ne_dot m2 32 c hc) h3
  exact ⟨hs, encodeBase52_inj m1 m2 hm1 hm2 hmz.1⟩

/-- C1.  The cache filename computed by `buildAOTCacheName` is a
deterministic function of `(sizeBytes, modifiedTime)` — equal pairs give the
identical name — and for all values below `2^63` the base-52 encoding
composed with the `<base>.<encodedSize>.<encodedModTime>.aot` naming is
injective: distinct pairs give distinct cache filenames.  The length bound
keeps the `snprintf` into the `MAX_PATH` buffer truncation-free, as in any
run where the path fits the buffer. -/
theorem buildAOTCacheName_deterministic_injective (jarPath : List Char)
    (s1 m1 s2 m2 : Nat) (hs1 : s1 < 2 ^ 63) (hm1 : m1 < 2 ^ 63)
    (hs2 : s2 < 2 ^ 63) (hm2 : m2 < 2 ^ 63) (hlen : jarPath.length ≤ 220) :
    buildAOTCacheName jarPath s1 m1 = buildAOTCacheName jarPath s2 m2 ↔
      (s1 = s2 ∧ m1 = m2) := by
  constructor
  · intro h
    rw [buildAOTCacheName_no_trunc jarPath s1 m1 hs1 hm1 hlen,
      buildAOTCacheName_no_trunc jarPath s2 m2 hs2 hm2 hlen] at h
    split_ifs at h with hd
    · have := List.append_cancel_left h
      have hname : cacheFileName (dropLastDotExt (splitLastSlash jarPath).2)
          s1 m1 = cacheFileName (dropLastDotExt (splitLastSlash jarPath).2)
          s2 m2 := by simpa using this
      exact cacheFileName_inj _ s1 m1 s2 m2 hs1 hm1 hs2 hm2 hname
    · exact cacheFileName_inj _ s1 m1 s2 m2 hs1 hm1 hs2 hm2 h
  · rintro ⟨rfl, rfl⟩
    rfl

/-- Witness for C1 at concrete values: the same `(size, mtime)` pair gives
the same name and a differing pair gives a different name. -/
theorem buildAOTCacheName_deterministic_injective_witness :
    buildAOTCacheName "C:\\apps\\my.app.jar".data 1000 123456 =
      buildAOTCacheName "C:\\apps\\my.app.jar".data 1000 123456 ∧
    buildAOTCacheName "C:\\apps\\my.app.jar".data 1000 123457 ≠
      buildAOTCacheName "C:\\apps\\my.app.jar".data 1000 123456 := by
  constructor
  · exact (buildAOTCacheName_deterministic_injective "C:\\apps\\my.app.jar".data
      1000 123456 1000 123456 (by norm_num) (by norm_num) (by norm_num)
      (by norm_num) (by decide)).mpr ⟨rfl, rfl⟩
  · intro h
    have := (buildAOTCacheName_deterministic_injective "C:\\apps\\my.app.jar".data
      1000 123457 1000 123456 (by norm_num) (by norm_num) (by norm_num)
      (by norm_num) (by decide)).mp h
    omega

/-! ## Lemmas: case-insensitive comparison and cache cleanup -/

theorem striEq_refl (a : List Char) : striEq a a = true := by
  simp [striEq]

theorem striEq_symm {a b : List Char} (h : striEq a b = true) :
    striEq b a = true := by
  simp only [striEq, decide_eq_true_eq] at h ⊢
  exact h.symm

theorem striEq_trans {a b c : List Char} (h1 : striEq a b = true)
    (h2 : striEq b c = true) : striEq a c = true := by
  simp only [striEq, decide_eq_true_eq] at h1 h2 ⊢
  exact h1.trans h2

theorem countP_le_one_of_all_striEq (cur : List Char)
    (p : List Char → Bool) :
    ∀ l : List (List Char), (∀ f ∈ l, p f = true → striEq f cur = true) →
      l.Pairwise (fun a b => striEq a b = false) → l.countP p ≤ 1 := by
  intro l
  induction l with
  | nil => intro _ _; simp
  | cons x xs ih =>
    intro hall hpw
    rw [List.pairwise_cons] at hpw
    by_cases hx : p x = true
    · have hx_cur : striEq x cur = true := hall x (by simp) hx
      have hzero : xs.countP p = 0 := by
        rw [List.countP_eq_zero]
        intro y hy hpy
        have hy_cur : striEq y cur = true := hall y (by simp [hy]) hpy
        have hxy : striEq x y = true := striEq_trans hx_cur (striEq_symm hy_cur)
        rw [hpw.1 y hy] at hxy
        exact absurd hxy (by simp)
      simp [List.countP_cons, hx, hzero]
    · have hx' : p x = false := by
        rw [Bool.not_eq_true] at hx
        exact hx
      simp only [List.countP_cons, hx', if_false, Bool.false_eq_true, cond_false]
      have := ih (fun f hf => hall f (by simp [hf])) hpw.2
      omega

theorem aotDecision_eq (listing : List (List Char)) (base cur : List Char) :
    aotDecision listing base cur =
      if (cleanupOldAOTFiles listing base cur).any (fun f => striEq f cur) then
        AotFlag.consume cur
      else AotFlag.produce cur := rfl

theorem postRunListing_eq (listing : List (List Char)) (base cur : List Char) :
    postRunListing listing base cur =
      if (cleanupOldAOTFiles listing base cur).any (fun f => striEq f cur) then
        cleanupOldAOTFiles listing base cur
      else cleanupOldAOTFiles listing base cur ++ [cur] := by
  simp only [postRunListing, aotDecision_eq]
  by_cases hex : (cleanupOldAOTFiles listing base cur).any
      (fun f => striEq f cur) = true
  · simp [hex]
  · simp only [Bool.not_eq_true] at hex
    simp [hex]

theorem cleanup_survivor_striEq (listing : List (List Char)) (base cur : List Char) :
    ∀ f ∈ cleanupOldAOTFiles listing base cur, matchesAotPat base f = true →
      striEq f cur = true := by
  intro f hf hmatch
  have hkeep := List.of_mem_filter hf
  by_contra hne
  rw [Bool.not_eq_true] at hne
  rw [hmatch, hne] at hkeep
  simp at hkeep

/-- C3.  Before composing the cache flag the cleanup pass deletes every file
matching `<base>.*.aot` whose name differs from the current key's filename;
every matching survivor equals (case-insensitively) the current filename;
after the run at most one matching cache file exists in the directory (the
`Pairwise` hypothesis is the filesystem invariant that a Windows directory
holds no two names equal up to case); and a stale cache file is never
consumed: the `-XX:AOTCache=` flag is only ever issued for the current
key's filename, and only when a file of that name survived the cleanup. -/
theorem cleanup_bounds_cache_and_never_reuses_stale
    (listing : List (List Char)) (base cur : List Char)
    (hfs : listing.Pairwise (fun a b => striEq a b = false)) :
    (∀ f ∈ listing, matchesAotPat base f = true → striEq f cur = false →
      f ∉ cleanupOldAOTFiles listing base cur) ∧
    (∀ f ∈ cleanupOldAOTFiles listing base cur, matchesAotPat base f = true →
      striEq f cur = true) ∧
    (postRunListing listing base cur).countP (fun f => matchesAotPat base f) ≤ 1 ∧
    (∀ old, striEq old cur = false →
      aotDecision listing base cur ≠ AotFlag.consume old) ∧
    (aotDecision listing base cur = AotFlag.consume cur →
      ∃ f ∈ cleanupOldAOTFiles listing base cur, striEq f cur = true) := by
  refine ⟨?_, cleanup_survivor_striEq listing base cur, ?_, ?_, ?_⟩
  · intro f _ hmatch hne hmem
    have hkeep := List.of_mem_filter hmem
    rw [hmatch, hne] at hkeep
    simp at hkeep
  · have hsub : (cleanupOldAOTFiles listing base cur).Sublist listing :=
      List.filter_sublist _
    have hpw2 : (cleanupOldAOTFiles listing base cur).Pairwise
        (fun a b => striEq a b = false) := List.Pairwise.sublist hsub hfs
    rw [postRunListing_eq]
    by_cases hex : (cleanupOldAOTFiles listing base cur).any
        (fun f => striEq f cur) = true
    · rw [if_pos hex]
      exact countP_le_one_of_all_striEq cur _ _
        (cleanup_survivor_striEq listing base cur) hpw2
    · rw [if_neg hex]
      have hnone : ∀ f ∈ cleanupOldAOTFiles listing base cur,
          striEq f cur = false := by
        intro f hf
        by_contra hne
        rw [Bool.not_eq_false] at hne
        exact hex (List.any_eq_true.mpr ⟨f, hf, hne⟩)
      have hzero : (cleanupOldAOTFiles listing base cur).countP
          (fun f => matchesAotPat base f) = 0 := by
        rw [List.countP_eq_zero]
        intro f hf hp
        have h1 := cleanup_survivor_striEq listing base cur f hf (by simpa using hp)
        rw [hnone f hf] at h1
        exact absurd h1 (by simp)
      rw [List.countP_append, hzero]
      simp only [List.countP_cons, List.countP_nil]
      split_ifs <;> omega
  · intro old hold hdec
    rw [aotDecision_eq] at hdec
    by_cases hex : (cleanupOldAOTFiles listing base cur).any
        (fun f => striEq f cur) = true
    · rw [if_pos hex] at hdec
      simp only [AotFlag.consume.injEq] at hdec
      subst hdec
      rw [striEq_refl] at hold
      exact absurd hold (by simp)
    · rw [if_neg hex] at hdec
      simp at hdec
  · intro hdec
    rw [aotDecision_eq] at hdec
    by_cases hex : (cleanupOldAOTFiles listing base cur).any
        (fun f => striEq f cur) = true
    · obtain ⟨f, hf, heq⟩ := List.any_eq_true.mp hex
      exact ⟨f, hf, heq⟩
    · rw [if_neg hex] at hdec
      simp at hdec

/-- Witness for C3 at a concrete directory holding one stale cache, the
current cache and an unrelated file: the filesystem invariant holds and the
post-run listing has at most one cache file. -/
theorem cleanup_bounds_cache_and_never_reuses_stale_witness :
    (["app.1.2.aot".data, "app.X.Y.aot".data, "other.txt".data] :
        List (List Char)).Pairwise (fun a b => striEq a b = false) ∧
    (postRunListing ["app.1.2.aot".data, "app.X.Y.aot".data, "other.txt".data]
        "app".data "app.X.Y.aot".data).countP
      (fun f => matchesAotPat "app".data f) ≤ 1 :=
  ⟨by decide,
    (cleanup_bounds_cache_and_never_reuses_stale
      ["app.1.2.aot".data, "app.X.Y.aot".data, "other.txt".data]
      "app".data "app.X.Y.aot".data (by decide)).2.2.1⟩

/-! ## Process supervision and context detection theorems -/

/-- C4.  With a successful spawn, interactive (console) mode waits on the
child (the trace contains the blocking wait) and returns the child's exit
code unchanged — in particular for codes 0, 1 and 127 — while headless
(GUI) mode returns exit code 0 without any wait on the child, whatever the
child's own exit code is. -/
theorem supervise_interactive_propagates_headless_zero (childExit : Nat)
    (h : childExit < 2 ^ 32) :
    (superviseProcess true true childExit).2 = childExit ∧
    SupEvent.waitForChild ∈ (superviseProcess true true childExit).1 ∧
    (superviseProcess false true childExit).2 = 0 ∧
    SupEvent.waitForChild ∉ (superviseProcess false true childExit).1 := by
  refine ⟨?_, ?_, ?_, ?_⟩
  · simp only [superviseProcess, if_true]
    exact Nat.mod_eq_of_lt h
  · simp [superviseProcess]
  · simp [superviseProcess]
  · simp [superviseProcess]

/-- Witness for C4 at the exit codes named by the specification. -/
theorem supervise_interactive_propagates_headless_zero_witness :
    (superviseProcess true true 0).2 = 0 ∧
    (superviseProcess true true 1).2 = 1 ∧
    (superviseProcess true true 127).2 = 127 ∧
    (superviseProcess false true 127).2 = 0 :=
  ⟨(supervise_interactive_propagates_headless_zero 0 (by norm_num)).1,
    (supervise_interactive_propagates_headless_zero 1 (by norm_num)).1,
    (supervise_interactive_propagates_headless_zero 127 (by norm_num)).1,
    (supervise_interactive_propagates_headless_zero 127 (by norm_num)).2.2.1⟩

/-- C9.  `isGuiMode` performs, in this exact order: hide the console window
(when one exists), detach from the inherited console, attempt to attach to
the parent's console; it reports interactive (console) mode, re-showing the
now-shared window, exactly when the attach succeeds, and reports headless
(GUI) mode with no show — the console stays hidden — when the attach
fails. -/
theorem isGuiMode_order_and_result (hasWnd0 attachOk hasWnd1 : Bool) :
    (isGuiMode hasWnd0 attachOk hasWnd1).1 =
      (if hasWnd0 then [ConsoleEvent.hideWindow] else []) ++
        [ConsoleEvent.freeConsole, ConsoleEvent.attachParent] ++
        (if attachOk && hasWnd1 then [ConsoleEvent.showWindow] else []) ∧
    ((isGuiMode hasWnd0 attachOk hasWnd1).2 = false ↔ attachOk = true) ∧
    (ConsoleEvent.showWindow ∈ (isGuiMode hasWnd0 attachOk hasWnd1).1 ↔
      attachOk = true ∧ hasWnd1 = true) ∧
    (attachOk = false →
      ConsoleEvent.showWindow ∉ (isGuiMode hasWnd0 attachOk hasWnd1).1) := by
  cases hasWnd0 <;> cases attachOk <;> cases hasWnd1 <;> decide

/-! ## Runtime location theorems -/

theorem findJavaScan_found (exeName : List Char) (fs : List Char → FileAttr) :
    ∀ toks p, findJavaScan exeName fs toks = some p →
      ∃ i : Fin toks.length, p = (toks.get i ++ '\\' :: exeName).take 259 ∧
        isRegularB fs p = true ∧
        ∀ j : Fin toks.length, j.val < i.val →
          isRegularB fs ((toks.get j ++ '\\' :: exeName).take 259) = false := by
  intro toks
  induction toks with
  | nil => intro p h; simp [findJavaScan] at h
  | cons t ts ih =>
    intro p h
    simp only [findJavaScan] at h
    by_cases ht : isRegularB fs ((t ++ '\\' :: exeName).take 259) = true
    · rw [if_pos ht] at h
      obtain rfl := Option.some_inj.mp h
      refine ⟨⟨0, by simp⟩, rfl, ht, ?_⟩
      intro j hj
      exact absurd hj (Nat.not_lt_zero _)
    · rw [if_neg ht] at h
      obtain ⟨i, hp, hreg, hmin⟩ := ih p h
      have hsucc : i.val + 1 < (t :: ts).length := by
        simp only [List.length_cons]
        exact Nat.succ_lt_succ i.isLt
      refine ⟨⟨i.val + 1, hsucc⟩, ?_, hreg, ?_⟩
      · simpa using hp
      · intro j hj
        rcases j with ⟨jv, hjv⟩
        cases jv with
        | zero =>
          simpa using (Bool.not_eq_true _).mp ht
        | succ j' =>
          have hj' : j' < i.val := by simpa using hj
          simpa using hmin ⟨j', by simpa using Nat.lt_of_succ_lt_succ hjv⟩ hj'

theorem findJavaScan_none (exeName : List Char) (fs : List Char → FileAttr) :
    ∀ toks, findJavaScan exeName fs toks = none ↔
      ∀ t ∈ toks, isRegularB fs ((t ++ '\\' :: exeName).take 259) = false := by
  intro toks
  induction toks with
  | nil => simp [findJavaScan]
  | cons t ts ih =>
    simp only [findJavaScan]
    by_cases ht : isRegularB fs ((t ++ '\\' :: exeName).take 259) = true
    · simp [ht]
    · rw [if_neg ht, ih]
      constructor
      · intro h x hx
        rcases List.mem_cons.mp hx with hx1 | hx1
        · subst hx1; exact (Bool.not_eq_true _).mp ht
        · exact h x hx1
      · intro h x hx
        exact h x (by simp [hx])

/-- C6.  Runtime resolution: with a `--java-home` override the path is
`<override>\bin\<exeName>` and must be an existing non-directory file, with
no fallback to the `PATH` scan (the result does not depend on `PATH` at
all); without an override, the `PATH` entries (as `strtok` produces them,
in order) are tested and the first existing non-directory
`<entry>\<exeName>` is returned; when the override is invalid or the search
is exhausted the launcher takes the `Java Not Found` path: exit code 1 and
no spawn.  The length bound keeps the `snprintf` of the override path
truncation-free. -/
theorem resolveRuntime_override_and_search (exeName : List Char)
    (fs : List Char → FileAttr) :
    (∀ h pathEnv, h.length + exeName.length ≤ 254 →
      resolveRuntime (some h) exeName pathEnv fs =
        (if isRegularB fs (h ++ "\\bin\\".data ++ exeName) = true then
          some (h ++ "\\bin\\".data ++ exeName)
        else none)) ∧
    (∀ pe p, resolveRuntime none exeName (some pe) fs = some p →
      ∃ i : Fin (splitSemis pe).length,
        p = ((splitSemis pe).get i ++ '\\' :: exeName).take 259 ∧
        isRegularB fs p = true ∧
        ∀ j : Fin (splitSemis pe).length, j.val < i.val →
          isRegularB fs
            (((splitSemis pe).get j ++ '\\' :: exeName).take 259) = false) ∧
    (∀ pe, resolveRuntime none exeName (some pe) fs = none ↔
      ∀ t ∈ splitSemis pe,
        isRegularB fs ((t ++ '\\' :: exeName).take 259) = false) ∧
    (∀ javaHome pathEnv,
      locatePhase javaHome exeName pathEnv fs = .runtimeNotFoundExit1 ↔
        resolveRuntime javaHome exeName pathEnv fs = none) := by
  refine ⟨?_, ?_, ?_, ?_⟩
  · intro h pathEnv hlen
    have hfull : (h ++ "\\bin\\".data ++ exeName).take 259 =
        h ++ "\\bin\\".data ++ exeName := by
      apply List.take_of_length_le
      simp only [List.length_append]
      simp only [show ("\\bin\\".data.length = 5) from rfl]
      omega
    simp only [resolveRuntime, hfull]
  · intro pe p h
    exact findJavaScan_found exeName fs (splitSemis pe) p h
  · intro pe
    exact findJavaScan_none exeName fs (splitSemis pe)
  · intro javaHome pathEnv
    unfold locatePhase
    rcases h : resolveRuntime javaHome exeName pathEnv fs with _ | p
    · simp
    · simp

/-- Witness for C6: a two-entry `PATH` whose second entry holds the
executable, and a valid and an invalid override. -/
theorem resolveRuntime_override_and_search_witness :
    resolveRuntime (some "C:\\jdk".data) "java.exe".data
        (some "C:\\a;C:\\b".data)
        (fun p => if p = "C:\\jdk\\bin\\java.exe".data then FileAttr.regular
          else if p = "C:\\b\\java.exe".data then FileAttr.regular
          else FileAttr.missing) =
      some "C:\\jdk\\bin\\java.exe".data ∧
    resolveRuntime none "java.exe".data (some "C:\\a;C:\\b".data)
        (fun p => if p = "C:\\jdk\\bin\\java.exe".data then FileAttr.regular
          else if p = "C:\\b\\java.exe".data then FileAttr.regular
          else FileAttr.missing) =
      some "C:\\b\\java.exe".data ∧
    locatePhase (some "C:\\nope".data) "java.exe".data
        (some "C:\\a;C:\\b".data) (fun _ => FileAttr.missing) =
      LocateOutcome.runtimeNotFoundExit1 := by
  have h1 := (resolveRuntime_override_and_search "java.exe".data
    (fun p => if p = "C:\\jdk\\bin\\java.exe".data then FileAttr.regular
      else if p = "C:\\b\\java.exe".data then FileAttr.regular
      else FileAttr.missing)).1 "C:\\jdk".data (some "C:\\a;C:\\b".data)
    (by decide)
  have h4 := (resolveRuntime_override_and_search "java.exe".data
    (fun _ => FileAttr.missing)).2.2.2 (some "C:\\nope".data)
    (some "C:\\a;C:\\b".data)
  refine ⟨?_, by decide, ?_⟩
  · rw [h1]; decide
  · rw [h4]; decide

/-! ## Configuration-mode selection theorems -/

theorem striEq_conflict {k a b : List Char} (h1 : striEq k a = true)
    (h2 : striEq k b = true) : striEq a b = true :=
  striEq_trans (striEq_symm h1) h2

theorem applyConfigLine_javaArgs (cfg : LauncherConfig) (line : List Char) :
    (applyConfigLine cfg line).javaArgs =
      (match jaLineValue line with
       | some v => v.take 32767
       | none => cfg.javaArgs) := by
  unfold applyConfigLine jaLineValue
  by_cases h1 : trimChars line = []
  · simp only [h1, if_true]
  rw [if_neg h1, if_neg h1]
  by_cases h2 : startsHash (trimChars line) = true
  · rw [if_pos h2, if_pos h2]
  rw [if_neg h2, if_neg h2]
  rcases heq : strchrIdx '=' (trimChars line) with _ | i
  · rfl
  simp only []
  by_cases hvm : striEq (trimChars ((trimChars line).take i)) "vm.args".data = true
  · have hja : striEq (trimChars ((trimChars line).take i)) "java.args".data =
        false := by
      by_contra hc
      rw [Bool.not_eq_false] at hc
      have := striEq_conflict hvm hc
      revert this
      decide
    rw [if_pos hvm, hja]
    simp
  rw [if_neg hvm]
  by_cases hja : striEq (trimChars ((trimChars line).take i)) "java.args".data = true
  · rw [if_pos hja, hja]
    simp
  rw [if_neg hja]
  rw [show (striEq (trimChars ((trimChars line).take i)) "java.args".data) =
    false from (Bool.not_eq_true _).mp hja]
  split_ifs <;> first | rfl | (exfalso; assumption)

theorem jaStep_foldl_acc (ls : List (List Char)) :
    ∀ a : Option (List Char),
      ls.foldl jaStep a =
        (match ls.foldl jaStep none with
         | some v => some v
         | none => a) := by
  induction ls with
  | nil => intro a; rfl
  | cons l ls' ih =>
    intro a
    simp only [List.foldl_cons]
    rcases hl : jaLineValue l with _ | v
    · rw [show jaStep a l = a from by simp [jaStep, hl],
        show jaStep none l = none from by simp [jaStep, hl]]
      exact ih a
    · rw [show jaStep a l = some v from by simp [jaStep, hl],
        show jaStep none l = some v from by simp [jaStep, hl]]
      rw [ih (some v)]
      cases h2 : ls'.foldl jaStep none <;> simp [h2]

theorem parseConfigLines_javaArgs (lines : List (List Char)) :
    (parseConfigLines lines).javaArgs =
      (match lastJavaArgsValue lines with
       | some v => v.take 32767
       | none => []) := by
  have hgen : ∀ (ls : List (List Char)) (cfg : LauncherConfig),
      (ls.foldl applyConfigLine cfg).javaArgs =
        (match ls.foldl jaStep none with
         | some v => v.take 32767
         | none => cfg.javaArgs) := by
    intro ls
    induction ls with
    | nil => intro cfg; rfl
    | cons l ls' ih =>
      intro cfg
      simp only [List.foldl_cons]
      rw [ih (applyConfigLine cfg l)]
      rcases hl : jaLineValue l with _ | v
      · rw [show jaStep none l = none from by simp [jaStep, hl]]
        rw [jaStep_foldl_acc ls' none]
        rcases h2 : ls'.foldl jaStep none with _ | w
        · simp only []
          rw [applyConfigLine_javaArgs, hl]
        · rfl
      · rw [show jaStep none l = some v from by simp [jaStep, hl]]
        rw [jaStep_foldl_acc ls' (some v)]
        rcases h2 : ls'.foldl jaStep none with _ | w
        · simp only []
          rw [applyConfigLine_javaArgs, hl]
        · rfl
  exact hgen lines defaultConfig

/-- C8.  Configuration-mode composition is selected iff the sidecar file
exists (could be opened) and its `java.args` field is non-empty — i.e. the
last `java.args` line of the file carries a non-empty trimmed value (the
`strncpy` truncation cannot turn a non-empty value empty).  A missing
sidecar selects traditional mode and is not an error (`selectConfigMode
none` is simply `false`), and so does a present sidecar with an empty or
absent `java.args`. -/
theorem configMode_iff_sidecar_javaArgs (file : Option (List (List Char))) :
    (selectConfigMode file = true ↔
      ∃ lines, file = some lines ∧
        ∃ v, lastJavaArgsValue lines = some v ∧ v ≠ []) ∧
    selectConfigMode none = false := by
  have hmode : ∀ lines : List (List Char),
      selectConfigMode (some lines) = true ↔
        (parseConfigLines lines).javaArgs ≠ [] := by
    intro lines
    simp [selectConfigMode, parseConfigFile]
  constructor
  · constructor
    · intro h
      rcases file with _ | lines
      · simp [selectConfigMode, parseConfigFile] at h
      · refine ⟨lines, rfl, ?_⟩
        have hne := (hmode lines).mp h
        rw [parseConfigLines_javaArgs] at hne
        rcases hl : lastJavaArgsValue lines with _ | v
        · rw [hl] at hne; simp at hne
        · refine ⟨v, rfl, ?_⟩
          rw [hl] at hne
          intro hv
          subst hv
          simp at hne
    · rintro ⟨lines, rfl, v, hv, hne⟩
      refine (hmode lines).mpr ?_
      rw [parseConfigLines_javaArgs, hv]
      rcases v with _ | ⟨c, cs⟩
      · exact absurd rfl hne
      · simp
  · simp [selectConfigMode, parseConfigFile]

/-! ## String-occurrence theory for the flag-stripping proofs -/

theorem isPrefOf_iff_append (p : List Char) :
    ∀ s, isPrefOf p s = true ↔ ∃ t, s = p ++ t := by
  induction p with
  | nil => intro s; simp [isPrefOf]
  | cons c cs ih =>
    intro s
    cases s with
    | nil => simp [isPrefOf]
    | cons x xs =>
      simp only [isPrefOf, Bool.and_eq_true, decide_eq_true_eq, ih xs]
      constructor
      · rintro ⟨rfl, t, rfl⟩
        exact ⟨t, rfl⟩
      · rintro ⟨t, h⟩
        simp only [List.cons_append, List.cons.injEq] at h
        exact ⟨h.1.symm, t, h.2⟩

theorem isPrefOf_self_append (p t : List Char) : isPrefOf p (p ++ t) = true :=
  (isPrefOf_iff_append p _).mpr ⟨t, rfl⟩

theorem isPrefOf_nil_false (p : List Char) (hne : p ≠ []) :
    isPrefOf p [] = false := by
  cases p with
  | nil => exact absurd rfl hne
  | cons c cs => rfl

theorem strstrIdx_some_iff (pat : List Char) :
    ∀ s i, strstrIdx pat s = some i ↔
      (isPrefOf pat (s.drop i) = true ∧
        ∀ j, j < i → isPrefOf pat (s.drop j) = false) := by
  intro s
  induction s with
  | nil =>
    intro i
    simp only [strstrIdx]
    by_cases h : isPrefOf pat [] = true
    · rw [if_pos h]
      constructor
      · rintro h2
        obtain rfl := Option.some_inj.mp h2
        exact ⟨h, fun j hj => absurd hj (Nat.not_lt_zero _)⟩
      · rintro ⟨h1, h2⟩
        rcases i with _ | i'
        · rfl
        · have := h2 0 (Nat.succ_pos _)
          rw [List.drop_nil] at this h1
          rw [h1] at this
          exact absurd this (by simp)
    · rw [if_neg h]
      constructor
      · intro h2; exact absurd h2 (by simp)
      · rintro ⟨h1, _⟩
        rw [List.drop_nil] at h1
        exact absurd h1 h
  | cons c cs ih =>
    intro i
    simp only [strstrIdx]
    by_cases h : isPrefOf pat (c :: cs) = true
    · rw [if_pos h]
      constructor
      · intro h2
        obtain rfl := Option.some_inj.mp h2
        exact ⟨by simpa using h, fun j hj => absurd hj (Nat.not_lt_zero _)⟩
      · rintro ⟨h1, h2⟩
        rcases i with _ | i'
        · rfl
        · have := h2 0 (Nat.succ_pos _)
          simp only [List.drop_zero] at this
          rw [this] at h
          exact absurd h (by simp)
    · rw [if_neg h]
      constructor
      · intro h2
        rcases hrec : strstrIdx pat cs with _ | k
        · rw [hrec] at h2; simp at h2
        · rw [hrec] at h2
          obtain rfl : k + 1 = i := by simpa using h2
          obtain ⟨hk1, hk2⟩ := (ih k).mp hrec
          refine ⟨by simpa using hk1, ?_⟩
          intro j hj
          rcases j with _ | j'
          · simpa using (Bool.not_eq_true _).mp h
          · simpa using hk2 j' (Nat.lt_of_succ_lt_succ hj)
      · rintro ⟨h1, h2⟩
        rcases i with _ | i'
        · simp only [List.drop_zero] at h1
          rw [h1] at h
          exact absurd h (by simp)
        · have hk : strstrIdx pat cs = some i' := by
            rw [ih i']
            refine ⟨by simpa using h1, ?_⟩
            intro j hj
            simpa using h2 (j + 1) (Nat.succ_lt_succ hj)
          rw [hk]
          rfl

theorem strstrIdx_none_iff (pat : List Char) :
    ∀ s, strstrIdx pat s = none ↔ ∀ j, isPrefOf pat (s.drop j) = false := by
  intro s
  induction s with
  | nil =>
    simp only [strstrIdx]
    by_cases h : isPrefOf pat [] = true
    · rw [if_pos h]
      constructor
      · intro h2; exact absurd h2 (by simp)
      · intro h2
        have := h2 0
        rw [List.drop_nil] at this
        rw [h] at this
        exact absurd this (by simp)
    · rw [if_neg h]
      constructor
      · intro _ j
        rw [List.drop_nil]
        exact (Bool.not_eq_true _).mp h
      · intro _; rfl
  | cons c cs ih =>
    simp only [strstrIdx]
    by_cases h : isPrefOf pat (c :: cs) = true
    · rw [if_pos h]
      constructor
      · intro h2; exact absurd h2 (by simp)
      · intro h2
        have := h2 0
        simp only [List.drop_zero] at this
        rw [h] at this
        exact absurd this (by simp)
    · rw [if_neg h]
      constructor
      · intro h2 j
        rcases j with _ | j'
        · simpa using (Bool.not_eq_true _).mp h
        · have : strstrIdx pat cs = none := by
            rcases hrec : strstrIdx pat cs with _ | k
            · rfl
            · rw [hrec] at h2; simp at h2
          simpa using (ih.mp this) j'
      · intro h2
        have : strstrIdx pat cs = none := by
          rw [ih]
          intro j
          simpa using h2 (j + 1)
        rw [this]
        rfl

theorem occursB_iff (pat s : List Char) :
    occursB pat s = true ↔ ∃ j, isPrefOf pat (s.drop j) = true := by
  unfold occursB
  rcases h : strstrIdx pat s with _ | i
  · simp only [Option.isSome_none]
    constructor
    · intro h2; exact absurd h2 (by simp)
    · rintro ⟨j, hj⟩
      have := (strstrIdx_none_iff pat s).mp h j
      rw [hj] at this
      exact absurd this (by simp)
  · simp only [Option.isSome_some, true_iff]
    exact ⟨i, ((strstrIdx_some_iff pat s i).mp h).1⟩

theorem occursB_eq_false_iff (pat s : List Char) :
    occursB pat s = false ↔ ∀ j, isPrefOf pat (s.drop j) = false := by
  rw [← strstrIdx_none_iff]
  unfold occursB
  rcases h : strstrIdx pat s with _ | i <;> simp

theorem isPrefOf_append_space_iff (pat a b : List Char) (hsp : ' ' ∉ pat)
    (hne : pat ≠ []) :
    isPrefOf pat (a ++ ' ' :: b) = true ↔ isPrefOf pat a = true := by
  constructor
  · intro h
    obtain ⟨t, ht⟩ := (isPrefOf_iff_append pat _).mp h
    by_cases hlen : pat.length ≤ a.length
    · have h1 : (a ++ ' ' :: b).take pat.length = a.take pat.length := by
        rw [List.take_append_eq_append_take]
        rw [show pat.length - a.length = 0 from Nat.sub_eq_zero_of_le hlen]
        simp
      rw [ht] at h1
      rw [List.take_append_eq_append_take] at h1
      simp only [Nat.sub_self, List.take_length, List.take_zero,
        List.append_nil] at h1
      rw [isPrefOf_iff_append]
      refine ⟨a.drop pat.length, ?_⟩
      conv_lhs => rw [← List.take_append_drop pat.length a]
      rw [← h1]
    · exfalso
      push_neg at hlen
      have h1 : (a ++ ' ' :: b).take (a.length + 1) = a ++ [' '] := by
        rw [List.take_append_eq_append_take]
        simp [List.take_of_length_le (le_of_lt (Nat.lt_succ_self _))]
      rw [ht, List.take_append_eq_append_take] at h1
      rw [show a.length + 1 - pat.length = 0 from
        Nat.sub_eq_zero_of_le hlen] at h1
      simp only [List.take_zero, List.append_nil] at h1
      have hmem : ' ' ∈ pat.take (a.length + 1) := by
        rw [h1]
        simp
      exact hsp (List.mem_of_mem_take hmem)
  · intro h
    obtain ⟨t, rfl⟩ := (isPrefOf_iff_append pat _).mp h
    rw [List.append_assoc, isPrefOf_iff_append]
    exact ⟨t ++ ' ' :: b, rfl⟩

theorem occursB_nil (pat : List Char) (hne : pat ≠ []) :
    occursB pat [] = false := by
  unfold occursB strstrIdx
  rw [isPrefOf_nil_false pat hne]
  rfl

theorem occursB_append_space_iff (pat a b : List Char) (hsp : ' ' ∉ pat)
    (hne : pat ≠ []) :
    occursB pat (a ++ ' ' :: b) = true ↔
      occursB pat a = true ∨ occursB pat b = true := by
  constructor
  · intro h
    obtain ⟨j, hj⟩ := (occursB_iff pat _).mp h
    by_cases hja : j ≤ a.length
    · left
      rw [List.drop_append_eq_append_drop,
        show j - a.length = 0 from Nat.sub_eq_zero_of_le hja,
        List.drop_zero] at hj
      rw [isPrefOf_append_space_iff pat _ b hsp hne] at hj
      exact (occursB_iff pat a).mpr ⟨j, hj⟩
    · right
      push_neg at hja
      rw [List.drop_append_eq_append_drop,
        show a.drop j = [] from List.drop_eq_nil_of_le (le_of_lt hja),
        List.nil_append] at hj
      have hj2 : j - a.length = (j - a.length - 1) + 1 := by omega
      rw [hj2] at hj
      simp only [List.drop_succ_cons] at hj
      exact (occursB_iff pat b).mpr ⟨j - a.length - 1, hj⟩
  · intro h
    rcases h with h | h
    · obtain ⟨j, hj⟩ := (occursB_iff pat a).mp h
      have hja : j < a.length := by
        by_contra hc
        push_neg at hc
        rw [List.drop_eq_nil_of_le hc, isPrefOf_nil_false pat hne] at hj
        exact absurd hj (by simp)
      refine (occursB_iff pat _).mpr ⟨j, ?_⟩
      rw [List.drop_append_eq_append_drop,
        show j - a.length = 0 from Nat.sub_eq_zero_of_le (le_of_lt hja),
        List.drop_zero]
      rw [isPrefOf_append_space_iff pat _ b hsp hne]
      exact hj
    · obtain ⟨j, hj⟩ := (occursB_iff pat b).mp h
      refine (occursB_iff pat _).mpr ⟨a.length + 1 + j, ?_⟩
      rw [List.drop_append_eq_append_drop,
        show a.drop (a.length + 1 + j) = [] from
          List.drop_eq_nil_of_le (by omega),
        List.nil_append,
        show a.length + 1 + j - a.length = j + 1 from by omega]
      simpa using hj

theorem occursB_append_space_false (pat a b : List Char) (hsp : ' ' ∉ pat)
    (hne : pat ≠ []) (ha : occursB pat a = false) (hb : occursB pat b = false) :
    occursB pat (a ++ ' ' :: b) = false := by
  by_contra hc
  rw [Bool.not_eq_false] at hc
  rcases (occursB_append_space_iff pat a b hsp hne).mp hc with h | h
  · rw [ha] at h; exact absurd h (by simp)
  · rw [hb] at h; exact absurd h (by simp)

/-- `SpacePad p` holds of the optional trailing space left behind when a
flag at the end of the string is removed. -/
def SpacePad (p : List Char) : Prop := p = [] ∨ p = [' ']

theorem occursB_append_pad (pat s p : List Char) (hsp : ' ' ∉ pat)
    (hne : pat ≠ []) (hpad : SpacePad p) (hs : occursB pat s = false) :
    occursB pat (s ++ p) = false := by
  rcases hpad with rfl | rfl
  · simpa using hs
  · exact occursB_append_space_false pat s [] hsp hne hs (occursB_nil pat hne)

/-! ## Locating and removing one flag in a rendered argument string -/

theorem strstrIdx_junction (pat a u r : List Char) (hsp : ' ' ∉ pat)
    (hne : pat ≠ []) (hpref : isPrefOf pat u = true)
    (ha : occursB pat a = false)
    (hsep : a = [] ∨ ∃ a', a = a' ++ [' ']) :
    strstrIdx pat (a ++ u ++ r) = some a.length := by
  rw [strstrIdx_some_iff]
  constructor
  · rw [List.append_assoc, List.drop_append_eq_append_drop]
    simp only [List.drop_length, Nat.sub_self, List.drop_zero, List.nil_append]
    obtain ⟨w, rfl⟩ := (isPrefOf_iff_append pat u).mp hpref
    rw [List.append_assoc, isPrefOf_iff_append]
    exact ⟨w ++ r, rfl⟩
  · intro j hj
    rcases hsep with rfl | ⟨a', rfl⟩
    · exact absurd hj (Nat.not_lt_zero _)
    · have hja : j ≤ a'.length := by
        simp only [List.length_append, List.length_cons, List.length_nil] at hj
        omega
      rw [List.append_assoc, List.append_assoc]
      rw [show ([' '] : List Char) ++ (u ++ r) = ' ' :: (u ++ r) from rfl]
      rw [List.drop_append_eq_append_drop,
        show j - a'.length = 0 from Nat.sub_eq_zero_of_le hja,
        List.drop_zero]
      by_contra hc
      rw [Bool.not_eq_false] at hc
      rw [isPrefOf_append_space_iff pat _ _ hsp hne] at hc
      have hocc : occursB pat (a' ++ [' ']) = true := by
        rw [show (a' ++ [' '] : List Char) = a' ++ ' ' :: [] from rfl]
        rw [occursB_append_space_iff pat a' [] hsp hne]
        exact Or.inl ((occursB_iff pat a').mpr ⟨j, hc⟩)
      rw [ha] at hocc
      exact absurd hocc (by simp)

theorem dropWhile_nonspace_append (v r : List Char)
    (hv : ∀ c ∈ v, c ≠ ' ') (hr : r = [] ∨ ∃ t, r = ' ' :: t) :
    (v ++ r).dropWhile (fun c => c ≠ ' ') = r := by
  induction v with
  | nil =>
    rcases hr with rfl | ⟨t, rfl⟩
    · rfl
    · simp [List.dropWhile]
  | cons c v' ih =>
    have hc : c ≠ ' ' := hv c (by simp)
    simp only [List.cons_append, List.dropWhile_cons]
    rw [if_pos (by simpa using hc)]
    exact ih (fun x hx => hv x (by simp [hx]))

theorem takeWhile_nonspace_append (v r : List Char)
    (hv : ∀ c ∈ v, c ≠ ' ') (hr : r = [] ∨ ∃ t, r = ' ' :: t) :
    (v ++ r).takeWhile (fun c => c ≠ ' ') = v := by
  induction v with
  | nil =>
    rcases hr with rfl | ⟨t, rfl⟩
    · rfl
    · simp [List.takeWhile]
  | cons c v' ih =>
    have hc : c ≠ ' ' := hv c (by simp)
    simp only [List.cons_append, List.takeWhile_cons]
    rw [if_pos (by simpa using hc)]
    rw [ih (fun x hx => hv x (by simp [hx]))]

theorem strchrIdx_append_first (q : Char) (v r : List Char)
    (hv : ∀ c ∈ v, c ≠ q) : strchrIdx q (v ++ q :: r) = some v.length := by
  induction v with
  | nil => simp [strchrIdx]
  | cons c v' ih =>
    have hc : c ≠ q := hv c (by simp)
    simp only [List.cons_append, strchrIdx]
    rw [if_neg hc]
    simp only [List.append_eq]
    rw [ih (fun x hx => hv x (by simp [hx]))]
    rfl

theorem skipValueEnd_quoted (v r : List Char) (hv : ∀ c ∈ v, c ≠ '"') :
    skipValueEnd ('"' :: (v ++ '"' :: r)) = r := by
  have h0 : skipValueEnd ('"' :: (v ++ '"' :: r)) =
      (match strchrIdx '"' (v ++ '"' :: r) with
       | some j => (v ++ '"' :: r).drop (j + 1)
       | none => []) := rfl
  rw [h0, strchrIdx_append_first '"' v r hv]
  simp only []
  rw [List.drop_append_eq_append_drop]
  simp

theorem skipValueEnd_unquoted (v r : List Char) (hne : v ≠ [])
    (hq : v.headD ' ' ≠ '"') (hv : ∀ c ∈ v, c ≠ ' ')
    (hr : r = [] ∨ ∃ t, r = ' ' :: t) :
    skipValueEnd (v ++ r) = r := by
  rcases v with _ | ⟨c, v'⟩
  · exact absurd rfl hne
  · have hc : c ≠ '"' := by simpa using hq
    unfold skipValueEnd
    split
    · rename_i t heq
      rw [List.cons_append] at heq
      exact absurd (List.head_eq_of_cons_eq heq.symm).symm hc
    · exact dropWhile_nonspace_append _ r hv hr

theorem dropWhile_space_cons_of_ne (c : Char) (x : List Char) (hc : c ≠ ' ') :
    (c :: x).dropWhile (fun c => c = ' ') = c :: x := by
  simp only [List.dropWhile_cons]
  rw [if_neg (by simpa using hc)]

theorem removeJavaHomeArg_eq_of_strstr (s : List Char) (i : Nat)
    (h : strstrIdx JH s = some i) :
    removeJavaHomeArg s = s.take i ++ dropOneSpace
      (if isPrefOf JHE (s.drop i) then skipValueEnd ((s.drop i).drop 12)
       else skipValueEnd (((s.drop i).drop 11).dropWhile (fun c => c = ' '))) := by
  unfold removeJavaHomeArg
  rw [h]

theorem removeJavaHomeArg_of_not_occurs (s : List Char)
    (h : occursB JH s = false) : removeJavaHomeArg s = s := by
  unfold occursB at h
  unfold removeJavaHomeArg
  rcases hs : strstrIdx JH s with _ | i
  · rfl
  · rw [hs] at h
    exact absurd h (by simp)

theorem removeFirstSub_eq_of_strstr (pat s : List Char) (i : Nat)
    (h : strstrIdx pat s = some i) :
    removeFirstSub pat s = s.take i ++ dropOneSpace (s.drop (i + pat.length)) := by
  unfold removeFirstSub
  rw [h]

theorem removeFirstSub_of_not_occurs (pat s : List Char)
    (h : occursB pat s = false) : removeFirstSub pat s = s := by
  unfold occursB at h
  unfold removeFirstSub
  rcases hs : strstrIdx pat s with _ | i
  · rfl
  · rw [hs] at h
    exact absurd h (by simp)

theorem removeFirstSub_at (pat a r : List Char) (hsp : ' ' ∉ pat)
    (hne : pat ≠ []) (ha : occursB pat a = false)
    (hsep : a = [] ∨ ∃ a', a = a' ++ [' '])
    (hr : r = [] ∨ ∃ t, r = ' ' :: t) :
    removeFirstSub pat (a ++ pat ++ r) = a ++ dropOneSpace r := by
  have hidx2 : strstrIdx pat (a ++ pat ++ r) = some a.length := by
    apply strstrIdx_junction pat a pat r hsp hne _ ha hsep
    rw [isPrefOf_iff_append]; exact ⟨[], (List.append_nil pat).symm⟩
  rw [removeFirstSub_eq_of_strstr _ _ _ hidx2]
  have htake : (a ++ pat ++ r).take a.length = a := by
    rw [List.append_assoc]; exact List.take_left a _
  have hdrop : (a ++ pat ++ r).drop (a.length + pat.length) = r := by
    rw [show a.length + pat.length = (a ++ pat).length from
      (List.length_append a pat).symm]
    exact List.drop_left (a ++ pat) r
  rw [htake, hdrop]

theorem isPrefOf_JHE_of_space_form (x : List Char) :
    isPrefOf JHE (JH ++ ' ' :: x) = false := by
  by_contra hc
  rw [Bool.not_eq_false, isPrefOf_iff_append] at hc
  obtain ⟨t, ht⟩ := hc
  rw [show JHE = JH ++ ['='] from rfl, List.append_assoc] at ht
  have := List.append_cancel_left ht
  simp only [List.singleton_append, List.cons.injEq] at this
  exact absurd this.1 (by decide)

theorem drop_11_JH (x : List Char) : (JH ++ x).drop 11 = x := by
  rw [show (11 : Nat) = JH.length from rfl]
  exact List.drop_left JH x

theorem drop_12_JHE (x : List Char) : (JHE ++ x).drop 12 = x := by
  rw [show (12 : Nat) = JHE.length from rfl]
  exact List.drop_left JHE x

theorem removeJH_at_eq_unq (a v r : List Char)
    (ha : occursB JH a = false)
    (hsep : a = [] ∨ ∃ a', a = a' ++ [' '])
    (hvne : v ≠ []) (hvsp : ∀ c ∈ v, c ≠ ' ') (hvq : v.headD ' ' ≠ '"')
    (hr : r = [] ∨ ∃ t, r = ' ' :: t) :
    removeJavaHomeArg (a ++ (JHE ++ v) ++ r) = a ++ dropOneSpace r := by
  have hpref : isPrefOf JH (JHE ++ v) = true := by
    rw [show JHE = JH ++ ['='] from rfl, List.append_assoc, isPrefOf_iff_append]
    exact ⟨['='] ++ v, rfl⟩
  have hidx := strstrIdx_junction JH a (JHE ++ v) r (by decide) (by decide)
    hpref ha hsep
  rw [removeJavaHomeArg_eq_of_strstr _ _ hidx]
  have htake : (a ++ (JHE ++ v) ++ r).take a.length = a := by
    rw [List.append_assoc]; exact List.take_left a _
  have hdrop : (a ++ (JHE ++ v) ++ r).drop a.length = JHE ++ (v ++ r) := by
    rw [List.append_assoc]
    rw [List.drop_left a _]
    rw [List.append_assoc]
  rw [htake, hdrop]
  rw [if_pos (isPrefOf_self_append JHE (v ++ r))]
  rw [drop_12_JHE]
  rw [skipValueEnd_unquoted v r hvne hvq hvsp hr]

theorem removeJH_at_eq_q (a v r : List Char)
    (ha : occursB JH a = false)
    (hsep : a = [] ∨ ∃ a', a = a' ++ [' '])
    (hv : ∀ c ∈ v, c ≠ '"')
    (hr : r = [] ∨ ∃ t, r = ' ' :: t) :
    removeJavaHomeArg (a ++ (JHE ++ ('"' :: v) ++ ['"']) ++ r) =
      a ++ dropOneSpace r := by
  have hunit : JHE ++ ('"' :: v) ++ ['"'] = JHE ++ ('"' :: (v ++ ['"'])) := by
    simp [List.append_assoc]
  rw [hunit]
  have hpref : isPrefOf JH (JHE ++ ('"' :: (v ++ ['"']))) = true := by
    rw [show JHE = JH ++ ['='] from rfl, List.append_assoc, isPrefOf_iff_append]
    exact ⟨_, rfl⟩
  have hidx := strstrIdx_junction JH a _ r (by decide) (by decide) hpref ha hsep
  rw [removeJavaHomeArg_eq_of_strstr _ _ hidx]
  have htake : (a ++ (JHE ++ ('"' :: (v ++ ['"']))) ++ r).take a.length = a := by
    rw [List.append_assoc]; exact List.take_left a _
  have hdrop : (a ++ (JHE ++ ('"' :: (v ++ ['"']))) ++ r).drop a.length =
      JHE ++ ('"' :: (v ++ '"' :: r)) := by
    rw [List.append_assoc]
    rw [List.drop_left a _]
    simp [List.append_assoc]
  rw [htake, hdrop]
  rw [if_pos (isPrefOf_self_append JHE _)]
  rw [drop_12_JHE]
  rw [skipValueEnd_quoted v r hv]

theorem removeJH_at_sp_unq (a v r : List Char)
    (ha : occursB JH a = false)
    (hsep : a = [] ∨ ∃ a', a = a' ++ [' '])
    (hvne : v ≠ []) (hvsp : ∀ c ∈ v, c ≠ ' ') (hvq : v.headD ' ' ≠ '"')
    (hr : r = [] ∨ ∃ t, r = ' ' :: t) :
    removeJavaHomeArg (a ++ (JH ++ ' ' :: v) ++ r) = a ++ dropOneSpace r := by
  have hpref : isPrefOf JH (JH ++ ' ' :: v) = true :=
    isPrefOf_self_append JH _
  have hidx := strstrIdx_junction JH a _ r (by decide) (by decide) hpref ha hsep
  rw [removeJavaHomeArg_eq_of_strstr _ _ hidx]
  have htake : (a ++ (JH ++ ' ' :: v) ++ r).take a.length = a := by
    rw [List.append_assoc]; exact List.take_left a _
  have hdrop : (a ++ (JH ++ ' ' :: v) ++ r).drop a.length =
      JH ++ ' ' :: (v ++ r) := by
    rw [List.append_assoc]
    rw [List.drop_left a _]
    simp [List.append_assoc]
  rw [htake, hdrop]
  rw [if_neg (by rw [isPrefOf_JHE_of_space_form]; simp)]
  rw [drop_11_JH]
  rw [show ((' ' :: (v ++ r)).dropWhile (fun c => c = ' ')) =
      (v ++ r).dropWhile (fun c => c = ' ') from by
    simp [List.dropWhile_cons]]
  rcases v with _ | ⟨c, v'⟩
  · exact absurd rfl hvne
  · have hc : c ≠ ' ' := hvsp c (by simp)
    rw [List.cons_append, dropWhile_space_cons_of_ne c _ hc]
    rw [← List.cons_append]
    rw [skipValueEnd_unquoted (c :: v') r (by simp) (by simpa using hvq) hvsp hr]

theorem removeJH_at_sp_q (a v r : List Char)
    (ha : occursB JH a = false)
    (hsep : a = [] ∨ ∃ a', a = a' ++ [' '])
    (hv : ∀ c ∈ v, c ≠ '"')
    (hr : r = [] ∨ ∃ t, r = ' ' :: t) :
    removeJavaHomeArg (a ++ (JH ++ ' ' :: '"' :: v ++ ['"']) ++ r) =
      a ++ dropOneSpace r := by
  have hunit : (JH ++ ' ' :: '"' :: v ++ ['"']) =
      JH ++ ' ' :: '"' :: (v ++ ['"']) := by
    simp [List.append_assoc]
  rw [hunit]
  have hpref : isPrefOf JH (JH ++ ' ' :: '"' :: (v ++ ['"'])) = true :=
    isPrefOf_self_append JH _
  have hidx := strstrIdx_junction JH a _ r (by decide) (by decide) hpref ha hsep
  rw [removeJavaHomeArg_eq_of_strstr _ _ hidx]
  have htake : (a ++ (JH ++ ' ' :: '"' :: (v ++ ['"'])) ++ r).take a.length =
      a := by
    rw [List.append_assoc]; exact List.take_left a _
  have hdrop : (a ++ (JH ++ ' ' :: '"' :: (v ++ ['"'])) ++ r).drop a.length =
      JH ++ ' ' :: '"' :: (v ++ '"' :: r) := by
    rw [List.append_assoc]
    rw [List.drop_left a _]
    simp [List.append_assoc]
  rw [htake, hdrop]
  rw [if_neg (by rw [isPrefOf_JHE_of_space_form]; simp)]
  rw [drop_11_JH]
  rw [show (((' ' :: '"' :: (v ++ '"' :: r))).dropWhile (fun c => c = ' ')) =
      ('"' :: (v ++ '"' :: r)).dropWhile (fun c => c = ' ') from by
    simp [List.dropWhile_cons]]
  rw [dropWhile_space_cons_of_ne '"' _ (by decide)]
  rw [skipValueEnd_quoted v r hv]

/-! ## Argument-token model for the stripping theorems

The raw invocation tail is modelled as a list of argument units separated by
single spaces: ordinary arguments and the four syntactic forms of the
internal flags.  `renderArgs` produces the raw string `main` receives after
the executable name. -/

inductive RawArg where
  | plain (s : List Char)
  | jhEq (q : Bool) (v : List Char)
  | jhSp (q : Bool) (v : List Char)
  | ena
  | dis
deriving DecidableEq

/-- The text of one argument unit. -/
def renderArg : RawArg → List Char
  | .plain s => s
  | .jhEq false v => JHE ++ v
  | .jhEq true v => JHE ++ ('"' :: v) ++ ['"']
  | .jhSp false v => JH ++ ' ' :: v
  | .jhSp true v => JH ++ ' ' :: '"' :: v ++ ['"']
  | .ena => EN
  | .dis => DA

/-- The raw argument string: units joined by single spaces. -/
def renderArgs : List RawArg → List Char
  | [] => []
  | [a] => renderArg a
  | a :: b :: rest => renderArg a ++ ' ' :: renderArgs (b :: rest)

def isPlainArg : RawArg → Bool
  | .plain _ => true
  | _ => false

def isJHArg : RawArg → Bool
  | .jhEq _ _ => true
  | .jhSp _ _ => true
  | _ => false

def isEnaArg : RawArg → Bool
  | .ena => true
  | _ => false

def isDisArg : RawArg → Bool
  | .dis => true
  | _ => false

/-- First character exists and is not whitespace. -/
def headNotWs : List Char → Bool
  | [] => false
  | c :: _ => !isWsChar c

/-- First character is not a double quote (or the string is empty). -/
def headNotQuote : List Char → Bool
  | [] => true
  | c :: _ => c ≠ '"'

/-- No internal-flag substring occurs in `s`. -/
def noFlagSub (s : List Char) : Bool :=
  !occursB JH s && !occursB EN s && !occursB DA s

/-- Well-formedness of a `--java-home` value: a quoted value has no quote
character in it; an unquoted one is non-empty, space-free and does not
start with a quote. -/
def wfValue : Bool → List Char → Bool
  | true, v => v.all (fun c => c ≠ '"')
  | false, v => !v.isEmpty && v.all (fun c => c ≠ ' ') && headNotQuote v

/-- Well-formedness of one argument unit: ordinary arguments are non-empty,
have no whitespace at either end and contain no internal-flag substring;
`--java-home` values are well-formed and the rendered flag contains no AOT
flag substring. -/
def wfArg : RawArg → Bool
  | .plain s => headNotWs s && headNotWs s.reverse && noFlagSub s
  | .jhEq q v => wfValue q v &&
      !occursB EN (renderArg (.jhEq q v)) && !occursB DA (renderArg (.jhEq q v))
  | .jhSp q v => wfValue q v &&
      !occursB EN (renderArg (.jhSp q v)) && !occursB DA (renderArg (.jhSp q v))
  | .ena => true
  | .dis => true

theorem renderArgs_cons_cons (a b : RawArg) (rest : List RawArg) :
    renderArgs (a :: b :: rest) = renderArg a ++ ' ' :: renderArgs (b :: rest) :=
  rfl

theorem renderArgs_append_of_ne_nil (xs : List RawArg) :
    ∀ ys, xs ≠ [] → ys ≠ [] →
      renderArgs (xs ++ ys) = renderArgs xs ++ ' ' :: renderArgs ys := by
  induction xs with
  | nil => intro ys h _; exact absurd rfl h
  | cons x xs' ih =>
    intro ys _ hys
    cases xs' with
    | nil =>
      cases ys with
      | nil => exact absurd rfl hys
      | cons y ys' => rfl
    | cons x2 xs'' =>
      rw [show (x :: x2 :: xs'') ++ ys = x :: ((x2 :: xs'') ++ ys) from rfl]
      rw [show (x2 :: xs'') ++ ys = x2 :: (xs'' ++ ys) from rfl]
      rw [renderArgs_cons_cons]
      rw [show x2 :: (xs'' ++ ys) = (x2 :: xs'') ++ ys from rfl]
      rw [ih ys (by simp) hys]
      rw [renderArgs_cons_cons]
      simp [List.append_assoc]

/-- The context to the left of a selected unit. -/
def leftCtx (pre : List RawArg) : List Char :=
  if pre.isEmpty then [] else renderArgs pre ++ [' ']

/-- The context to the right of a selected unit. -/
def rightCtx (post : List RawArg) (pad : List Char) : List Char :=
  if post.isEmpty then pad else ' ' :: (renderArgs post ++ pad)

theorem renderArgs_split (pre post : List RawArg) (u : RawArg)
    (pad : List Char) :
    renderArgs (pre ++ u :: post) ++ pad =
      leftCtx pre ++ renderArg u ++ rightCtx post pad := by
  rcases pre with _ | ⟨p, pre'⟩
  · rcases post with _ | ⟨q, post'⟩
    · simp [leftCtx, rightCtx, renderArgs]
    · simp only [List.nil_append, leftCtx, rightCtx, List.isEmpty_cons,
        if_false, List.isEmpty_nil]
      rw [renderArgs_cons_cons]
      simp [List.append_assoc]
  · rcases post with _ | ⟨q, post'⟩
    · rw [show ((p :: pre') ++ u :: [] : List RawArg) =
        (p :: pre') ++ [u] from rfl]
      rw [renderArgs_append_of_ne_nil (p :: pre') [u] (by simp) (by simp)]
      simp only [leftCtx, rightCtx, List.isEmpty_cons, if_false,
        List.isEmpty_nil, if_true]
      simp [renderArgs, List.append_assoc]
    · rw [renderArgs_append_of_ne_nil (p :: pre') (u :: q :: post')
        (by simp) (by simp)]
      rw [renderArgs_cons_cons]
      simp only [leftCtx, rightCtx, List.isEmpty_cons, if_false]
      simp [List.append_assoc]

theorem leftCtx_sep (pre : List RawArg) :
    leftCtx pre = [] ∨ ∃ a', leftCtx pre = a' ++ [' '] := by
  unfold leftCtx
  rcases pre with _ | ⟨p, pre'⟩
  · left; rfl
  · right; exact ⟨renderArgs (p :: pre'), by simp⟩

theorem rightCtx_cond (post : List RawArg) (pad : List Char)
    (hpad : SpacePad pad) :
    rightCtx post pad = [] ∨ ∃ t, rightCtx post pad = ' ' :: t := by
  unfold rightCtx
  rcases post with _ | ⟨q, post'⟩
  · simp only [List.isEmpty_nil, if_true]
    rcases hpad with rfl | rfl
    · left; rfl
    · right; exact ⟨[], rfl⟩
  · right; exact ⟨renderArgs (q :: post') ++ pad, by simp⟩

theorem reassemble (pre post : List RawArg) (pad : List Char)
    (hpad : SpacePad pad) :
    ∃ pad', leftCtx pre ++ dropOneSpace (rightCtx post pad) =
      renderArgs (pre ++ post) ++ pad' ∧ SpacePad pad' := by
  rcases post with _ | ⟨q, post'⟩
  · have hdrop : dropOneSpace (rightCtx [] pad) = [] := by
      unfold rightCtx
      rcases hpad with rfl | rfl <;> rfl
    rw [hdrop, List.append_nil]
    rcases pre with _ | ⟨p, pre'⟩
    · exact ⟨[], by simp [leftCtx, renderArgs], Or.inl rfl⟩
    · refine ⟨[' '], ?_, Or.inr rfl⟩
      simp [leftCtx]
  · have hdrop : dropOneSpace (rightCtx (q :: post') pad) =
        renderArgs (q :: post') ++ pad := by
      unfold rightCtx
      simp [dropOneSpace]
    rw [hdrop]
    rcases pre with _ | ⟨p, pre'⟩
    · exact ⟨pad, by simp [leftCtx], hpad⟩
    · refine ⟨pad, ?_, hpad⟩
      rw [show ((p :: pre') ++ q :: post' : List RawArg) =
        (p :: pre') ++ (q :: post') from rfl]
      rw [renderArgs_append_of_ne_nil (p :: pre') (q :: post')
        (by simp) (by simp)]
      simp [leftCtx, List.append_assoc]

/-! ## Unit-level occurrence facts -/

theorem wf_unit_JH_free (u : RawArg) (hwf : wfArg u = true)
    (hu : isJHArg u = false) : occursB JH (renderArg u) = false := by
  rcases u with s | ⟨q, v⟩ | ⟨q, v⟩ | _ | _
  · simp only [wfArg, Bool.and_eq_true] at hwf
    have := hwf.2
    simp only [noFlagSub, Bool.and_eq_true, Bool.not_eq_true'] at this
    exact this.1.1
  · simp [isJHArg] at hu
  · simp [isJHArg] at hu
  · decide
  · decide

theorem wf_unit_EN_free (u : RawArg) (hwf : wfArg u = true)
    (hu : isEnaArg u = false) : occursB EN (renderArg u) = false := by
  rcases u with s | ⟨q, v⟩ | ⟨q, v⟩ | _ | _
  · simp only [wfArg, Bool.and_eq_true] at hwf
    have := hwf.2
    simp only [noFlagSub, Bool.and_eq_true, Bool.not_eq_true'] at this
    exact this.1.2
  · simp only [wfArg, Bool.and_eq_true, Bool.not_eq_true'] at hwf
    exact hwf.1.2
  · simp only [wfArg, Bool.and_eq_true, Bool.not_eq_true'] at hwf
    exact hwf.1.2
  · simp [isEnaArg] at hu
  · decide

theorem wf_unit_DA_free (u : RawArg) (hwf : wfArg u = true)
    (hu : isDisArg u = false) : occursB DA (renderArg u) = false := by
  rcases u with s | ⟨q, v⟩ | ⟨q, v⟩ | _ | _
  · simp only [wfArg, Bool.and_eq_true] at hwf
    have := hwf.2
    simp only [noFlagSub, Bool.and_eq_true, Bool.not_eq_true'] at this
    exact this.2
  · simp only [wfArg, Bool.and_eq_true, Bool.not_eq_true'] at hwf
    exact hwf.2
  · simp only [wfArg, Bool.and_eq_true, Bool.not_eq_true'] at hwf
    exact hwf.2
  · decide
  · simp [isDisArg] at hu

theorem occursB_renderArgs_false (pat : List Char) (hsp : ' ' ∉ pat)
    (hne : pat ≠ []) :
    ∀ args : List RawArg, (∀ u ∈ args, occursB pat (renderArg u) = false) →
      occursB pat (renderArgs args) = false := by
  intro args
  induction args with
  | nil => intro _; exact occursB_nil pat hne
  | cons a rest ih =>
    intro h
    rcases rest with _ | ⟨b, rest'⟩
    · exact h a (by simp)
    · rw [renderArgs_cons_cons]
      exact occursB_append_space_false pat _ _ hsp hne (h a (by simp))
        (ih (fun u hu => h u (by simp [hu])))

theorem occursB_leftCtx_false (pat : List Char) (hsp : ' ' ∉ pat)
    (hne : pat ≠ []) (pre : List RawArg)
    (hpre : ∀ u ∈ pre, occursB pat (renderArg u) = false) :
    occursB pat (leftCtx pre) = false := by
  unfold leftCtx
  rcases pre with _ | ⟨p, pre'⟩
  · exact occursB_nil pat hne
  · simp only [List.isEmpty_cons, if_false]
    rw [show (renderArgs (p :: pre') ++ [' '] : List Char) =
      renderArgs (p :: pre') ++ ' ' :: [] from rfl]
    exact occursB_append_space_false pat _ _ hsp hne
      (occursB_renderArgs_false pat hsp hne _ hpre) (occursB_nil pat hne)

theorem occursB_extend_pad (pat s pad : List Char) (hsp : ' ' ∉ pat)
    (hne : pat ≠ []) (hpad : SpacePad pad) (h : occursB pat s = true) :
    occursB pat (s ++ pad) = true := by
  rcases hpad with rfl | rfl
  · simpa using h
  · rw [show (s ++ [' '] : List Char) = s ++ ' ' :: [] from rfl]
    rw [occursB_append_space_iff pat s [] hsp hne]
    exact Or.inl h

theorem occursB_unit_present (pat : List Char) (hsp : ' ' ∉ pat)
    (hne : pat ≠ []) :
    ∀ (args : List RawArg) (u : RawArg), u ∈ args →
      occursB pat (renderArg u) = true →
      occursB pat (renderArgs args) = true := by
  intro args
  induction args with
  | nil => intro u hu; simp at hu
  | cons a rest ih =>
    intro u hu hocc
    rcases rest with _ | ⟨b, rest'⟩
    · rcases List.mem_singleton.mp hu with rfl
      exact hocc
    · rw [renderArgs_cons_cons]
      rw [occursB_append_space_iff pat _ _ hsp hne]
      rcases List.mem_cons.mp hu with rfl | hmem
      · exact Or.inl hocc
      · exact Or.inr (ih u hmem hocc)

/-! ## One removal pass over a rendered argument list -/

theorem wfValue_unq_facts (v : List Char) (h : wfValue false v = true) :
    v ≠ [] ∧ (∀ c ∈ v, c ≠ ' ') ∧ v.headD ' ' ≠ '"' := by
  simp only [wfValue, Bool.and_eq_true, Bool.not_eq_true',
    List.all_eq_true, decide_eq_true_eq] at h
  refine ⟨by simpa using h.1.1, h.1.2, ?_⟩
  rcases v with _ | ⟨c, v'⟩
  · simp at h
  · simpa [headNotQuote] using h.2

theorem wfValue_q_facts (v : List Char) (h : wfValue true v = true) :
    ∀ c ∈ v, c ≠ '"' := by
  simp only [wfValue, List.all_eq_true, decide_eq_true_eq] at h
  exact h

theorem step_remove_ena (pre post : List RawArg) (pad : List Char)
    (hpad : SpacePad pad)
    (hpre : ∀ u ∈ pre, occursB EN (renderArg u) = false) :
    ∃ pad', removeFirstSub EN (renderArgs (pre ++ RawArg.ena :: post) ++ pad) =
      renderArgs (pre ++ post) ++ pad' ∧ SpacePad pad' := by
  rw [renderArgs_split pre post RawArg.ena pad]
  rw [show renderArg RawArg.ena = EN from rfl]
  rw [removeFirstSub_at EN (leftCtx pre) (rightCtx post pad)
    (by decide) (by decide)
    (occursB_leftCtx_false EN (by decide) (by decide) pre hpre)
    (leftCtx_sep pre) (rightCtx_cond post pad hpad)]
  exact reassemble pre post pad hpad

theorem step_remove_dis (pre post : List RawArg) (pad : List Char)
    (hpad : SpacePad pad)
    (hpre : ∀ u ∈ pre, occursB DA (renderArg u) = false) :
    ∃ pad', removeFirstSub DA (renderArgs (pre ++ RawArg.dis :: post) ++ pad) =
      renderArgs (pre ++ post) ++ pad' ∧ SpacePad pad' := by
  rw [renderArgs_split pre post RawArg.dis pad]
  rw [show renderArg RawArg.dis = DA from rfl]
  rw [removeFirstSub_at DA (leftCtx pre) (rightCtx post pad)
    (by decide) (by decide)
    (occursB_leftCtx_false DA (by decide) (by decide) pre hpre)
    (leftCtx_sep pre) (rightCtx_cond post pad hpad)]
  exact reassemble pre post pad hpad

theorem step_remove_jh (pre post : List RawArg) (u : RawArg) (pad : List Char)
    (hpad : SpacePad pad) (hu : isJHArg u = true) (hwfu : wfArg u = true)
    (hpre : ∀ x ∈ pre, occursB JH (renderArg x) = false) :
    ∃ pad', removeJavaHomeArg (renderArgs (pre ++ u :: post) ++ pad) =
      renderArgs (pre ++ post) ++ pad' ∧ SpacePad pad' := by
  rw [renderArgs_split pre post u pad]
  have hA := occursB_leftCtx_false JH (by decide) (by decide) pre hpre
  have hsep := leftCtx_sep pre
  have hrc := rightCtx_cond post pad hpad
  rcases u with s | ⟨q, v⟩ | ⟨q, v⟩ | _ | _
  · simp [isJHArg] at hu
  · rcases q with _ | _
    · simp only [wfArg, Bool.and_eq_true] at hwfu
      obtain ⟨hvne, hvsp, hvq⟩ := wfValue_unq_facts v hwfu.1.1
      rw [show renderArg (RawArg.jhEq false v) = JHE ++ v from rfl]
      rw [removeJH_at_eq_unq (leftCtx pre) v (rightCtx post pad)
        hA hsep hvne hvsp hvq hrc]
      exact reassemble pre post pad hpad
    · simp only [wfArg, Bool.and_eq_true] at hwfu
      have hv := wfValue_q_facts v hwfu.1.1
      rw [show renderArg (RawArg.jhEq true v) =
        JHE ++ ('"' :: v) ++ ['"'] from rfl]
      rw [removeJH_at_eq_q (leftCtx pre) v (rightCtx post pad)
        hA hsep hv hrc]
      exact reassemble pre post pad hpad
  · rcases q with _ | _
    · simp only [wfArg, Bool.and_eq_true] at hwfu
      obtain ⟨hvne, hvsp, hvq⟩ := wfValue_unq_facts v hwfu.1.1
      rw [show renderArg (RawArg.jhSp false v) = JH ++ ' ' :: v from rfl]
      rw [removeJH_at_sp_unq (leftCtx pre) v (rightCtx post pad)
        hA hsep hvne hvsp hvq hrc]
      exact reassemble pre post pad hpad
    · simp only [wfArg, Bool.and_eq_true] at hwfu
      have hv := wfValue_q_facts v hwfu.1.1
      rw [show renderArg (RawArg.jhSp true v) =
        JH ++ ' ' :: '"' :: v ++ ['"'] from rfl]
      rw [removeJH_at_sp_q (leftCtx pre) v (rightCtx post pad)
        hA hsep hv hrc]
      exact reassemble pre post pad hpad
  · simp [isJHArg] at hu
  · simp [isJHArg] at hu

theorem filter_le_one_split {α : Type} (p : α → Bool) :
    ∀ l : List α, (l.filter p).length ≤ 1 →
      (∀ x ∈ l, p x = false) ∨
        ∃ pre u post, l = pre ++ u :: post ∧ p u = true ∧
          (∀ x ∈ pre, p x = false) ∧ (∀ x ∈ post, p x = false) := by
  intro l
  induction l with
  | nil => intro _; left; intro x hx; simp at hx
  | cons a rest ih =>
    intro h
    by_cases ha : p a = true
    · right
      rw [List.filter_cons_of_pos ha] at h
      simp only [List.length_cons] at h
      have hzero : (rest.filter p).length = 0 := by omega
      have hrest : ∀ x ∈ rest, p x = false := by
        intro x hx
        by_contra hc
        rw [Bool.not_eq_false] at hc
        have : x ∈ rest.filter p := List.mem_filter.mpr ⟨hx, hc⟩
        rw [List.length_eq_zero] at hzero
        rw [hzero] at this
        simp at this
      exact ⟨[], a, rest, rfl, ha, by simp, hrest⟩
    · have ha' : p a = false := by rw [Bool.not_eq_true] at ha; exact ha
      rw [List.filter_cons_of_neg (by simp [ha'])] at h
      rcases ih h with hall | ⟨pre, u, post, rfl, hu, hpre, hpost⟩
      · left
        intro x hx
        rcases List.mem_cons.mp hx with rfl | hx'
        · exact ha'
        · exact hall x hx'
      · right
        refine ⟨a :: pre, u, post, rfl, hu, ?_, hpost⟩
        intro x hx
        rcases List.mem_cons.mp hx with rfl | hx'
        · exact ha'
        · exact hpre x hx'

/-! ## Stage lemmas: the three removals over a unit list -/

theorem isJH_not_plain (u : RawArg) (h : isJHArg u = true) :
    isPlainArg u = false := by
  rcases u with _ | _ | _ | _ | _ <;> simp_all [isJHArg, isPlainArg]

theorem isJH_not_dis (u : RawArg) (h : isJHArg u = true) :
    isDisArg u = false := by
  rcases u with _ | _ | _ | _ | _ <;> simp_all [isJHArg, isDisArg]

theorem isJH_not_ena (u : RawArg) (h : isJHArg u = true) :
    isEnaArg u = false := by
  rcases u with _ | _ | _ | _ | _ <;> simp_all [isJHArg, isEnaArg]

theorem all_flags_false_plain (u : RawArg) (h1 : isJHArg u = false)
    (h2 : isDisArg u = false) (h3 : isEnaArg u = false) :
    isPlainArg u = true := by
  rcases u with _ | _ | _ | _ | _ <;>
    simp_all [isJHArg, isDisArg, isEnaArg, isPlainArg]

theorem strstrIdx_eq_none_of (pat s : List Char)
    (h : occursB pat s = false) : strstrIdx pat s = none := by
  unfold occursB at h
  rcases hs : strstrIdx pat s with _ | i
  · rfl
  · rw [hs] at h; exact absurd h (by simp)

theorem strstrIdx_isSome_of (pat s : List Char)
    (h : occursB pat s = true) : ∃ i, strstrIdx pat s = some i := by
  unfold occursB at h
  rcases hs : strstrIdx pat s with _ | i
  · rw [hs] at h; exact absurd h (by simp)
  · exact ⟨i, rfl⟩

theorem stage_jh (args : List RawArg)
    (hwf : ∀ u ∈ args, wfArg u = true)
    (hjh : (args.filter isJHArg).length ≤ 1) :
    ∃ args1 pad1,
      removeJavaHomeArg (renderArgs args) = renderArgs args1 ++ pad1 ∧
      SpacePad pad1 ∧
      (∀ u ∈ args1, wfArg u = true) ∧
      (∀ u ∈ args1, isJHArg u = false) ∧
      args1.filter isPlainArg = args.filter isPlainArg ∧
      (args1.filter isDisArg).length ≤ (args.filter isDisArg).length ∧
      (args1.filter isEnaArg).length ≤ (args.filter isEnaArg).length := by
  rcases filter_le_one_split isJHArg args hjh with hnone |
    ⟨pre, u, post, rfl, hu, hpre, hpost⟩
  · refine ⟨args, [], ?_, Or.inl rfl, hwf, hnone, rfl, le_refl _, le_refl _⟩
    rw [removeJavaHomeArg_of_not_occurs _ (occursB_renderArgs_false JH
      (by decide) (by decide) args
      (fun x hx => wf_unit_JH_free x (hwf x hx) (hnone x hx)))]
    rw [List.append_nil]
  · have hstep := step_remove_jh pre post u [] (Or.inl rfl) hu
      (hwf u (by simp))
      (fun x hx => wf_unit_JH_free x (hwf x (by simp [hx])) (hpre x hx))
    rw [List.append_nil] at hstep
    obtain ⟨pad', heq, hpad'⟩ := hstep
    refine ⟨pre ++ post, pad', heq, hpad', ?_, ?_, ?_, ?_, ?_⟩
    · intro x hx
      apply hwf
      rcases List.mem_append.mp hx with h | h <;> simp [h]
    · intro x hx
      rcases List.mem_append.mp hx with h | h
      · exact hpre x h
      · exact hpost x h
    · rw [List.filter_append, List.filter_append,
        List.filter_cons_of_neg (by simp [isJH_not_plain u hu])]
    · rw [List.filter_append, List.filter_append,
        List.filter_cons_of_neg (by simp [isJH_not_dis u hu])]
    · rw [List.filter_append, List.filter_append,
        List.filter_cons_of_neg (by simp [isJH_not_ena u hu])]

theorem isDis_eq (u : RawArg) (h : isDisArg u = true) : u = RawArg.dis := by
  rcases u with _ | _ | _ | _ | _ <;> simp_all [isDisArg]

theorem isEna_eq (u : RawArg) (h : isEnaArg u = true) : u = RawArg.ena := by
  rcases u with _ | _ | _ | _ | _ <;> simp_all [isEnaArg]

theorem stage_da (args1 : List RawArg) (pad1 : List Char) (hpad1 : SpacePad pad1)
    (hwf : ∀ u ∈ args1, wfArg u = true)
    (hnjh : ∀ u ∈ args1, isJHArg u = false)
    (hda : (args1.filter isDisArg).length ≤ 1) :
    ∃ args2 pad2,
      removeFirstSub DA (renderArgs args1 ++ pad1) = renderArgs args2 ++ pad2 ∧
      SpacePad pad2 ∧
      (∀ u ∈ args2, wfArg u = true) ∧ (∀ u ∈ args2, isJHArg u = false) ∧
      (∀ u ∈ args2, isDisArg u = false) ∧
      args2.filter isPlainArg = args1.filter isPlainArg ∧
      (args2.filter isEnaArg).length ≤ (args1.filter isEnaArg).length := by
  rcases filter_le_one_split isDisArg args1 hda with hnone |
    ⟨pre, u, post, rfl, hu, hpre, hpost⟩
  · refine ⟨args1, pad1, ?_, hpad1, hwf, hnjh, hnone, rfl, le_refl _⟩
    rw [removeFirstSub_of_not_occurs DA _ (occursB_append_pad DA _ pad1
      (by decide) (by decide) hpad1 (occursB_renderArgs_false DA
        (by decide) (by decide) args1
        (fun x hx => wf_unit_DA_free x (hwf x hx) (hnone x hx))))]
  · obtain rfl := isDis_eq u hu
    obtain ⟨pad', heq, hpad'⟩ := step_remove_dis pre post pad1 hpad1
      (fun x hx => wf_unit_DA_free x (hwf x (by simp [hx])) (hpre x hx))
    refine ⟨pre ++ post, pad', heq, hpad', ?_, ?_, ?_, ?_, ?_⟩
    · intro x hx
      apply hwf
      rcases List.mem_append.mp hx with h | h <;> simp [h]
    · intro x hx
      apply hnjh
      rcases List.mem_append.mp hx with h | h <;> simp [h]
    · intro x hx
      rcases List.mem_append.mp hx with h | h
      · exact hpre x h
      · exact hpost x h
    · rw [List.filter_append, List.filter_append,
        List.filter_cons_of_neg (by simp [isPlainArg])]
    · rw [List.filter_append, List.filter_append,
        List.filter_cons_of_neg (by simp [isEnaArg])]

theorem stage_en (args2 : List RawArg) (pad2 : List Char) (hpad2 : SpacePad pad2)
    (hwf : ∀ u ∈ args2, wfArg u = true)
    (hnjh : ∀ u ∈ args2, isJHArg u = false)
    (hnda : ∀ u ∈ args2, isDisArg u = false)
    (hen : (args2.filter isEnaArg).length ≤ 1) :
    ∃ args3 pad3,
      removeFirstSub EN (renderArgs args2 ++ pad2) = renderArgs args3 ++ pad3 ∧
      SpacePad pad3 ∧
      (∀ u ∈ args3, wfArg u = true) ∧ (∀ u ∈ args3, isJHArg u = false) ∧
      (∀ u ∈ args3, isDisArg u = false) ∧ (∀ u ∈ args3, isEnaArg u = false) ∧
      args3.filter isPlainArg = args2.filter isPlainArg := by
  rcases filter_le_one_split isEnaArg args2 hen with hnone |
    ⟨pre, u, post, rfl, hu, hpre, hpost⟩
  · refine ⟨args2, pad2, ?_, hpad2, hwf, hnjh, hnda, hnone, rfl⟩
    rw [removeFirstSub_of_not_occurs EN _ (occursB_append_pad EN _ pad2
      (by decide) (by decide) hpad2 (occursB_renderArgs_false EN
        (by decide) (by decide) args2
        (fun x hx => wf_unit_EN_free x (hwf x hx) (hnone x hx))))]
  · obtain rfl := isEna_eq u hu
    obtain ⟨pad', heq, hpad'⟩ := step_remove_ena pre post pad2 hpad2
      (fun x hx => wf_unit_EN_free x (hwf x (by simp [hx])) (hpre x hx))
    refine ⟨pre ++ post, pad', heq, hpad', ?_, ?_, ?_, ?_, ?_⟩
    · intro x hx
      apply hwf
      rcases List.mem_append.mp hx with h | h <;> simp [h]
    · intro x hx
      apply hnjh
      rcases List.mem_append.mp hx with h | h <;> simp [h]
    · intro x hx
      apply hnda
      rcases List.mem_append.mp hx with h | h <;> simp [h]
    · intro x hx
      rcases List.mem_append.mp hx with h | h
      · exact hpre x h
      · exact hpost x h
    · rw [List.filter_append, List.filter_append,
        List.filter_cons_of_neg (by simp [isPlainArg])]

/-! ## Trimming a clean rendered string -/

theorem dropWhile_of_headNotWs (l : List Char) (h : headNotWs l = true) :
    l.dropWhile isWsChar = l := by
  rcases l with _ | ⟨c, t⟩
  · rfl
  · simp only [headNotWs, Bool.not_eq_true'] at h
    simp [List.dropWhile_cons, h]

theorem trimChars_clean_pad (x pad : List Char) (hpad : SpacePad pad)
    (hx : x = [] ∨ (headNotWs x = true ∧ headNotWs x.reverse = true)) :
    trimChars (x ++ pad) = x := by
  rcases hx with rfl | ⟨h1, h2⟩
  · rcases hpad with rfl | rfl <;> rfl
  · unfold trimChars
    rw [show (x ++ pad).dropWhile isWsChar = x ++ pad from
      dropWhile_of_headNotWs _ (by
        rcases x with _ | ⟨c, t⟩
        · simp [headNotWs] at h1
        · simpa [headNotWs] using h1)]
    rw [List.reverse_append]
    have hpadrev : pad.reverse.dropWhile isWsChar = [] ∨
        (pad.reverse = [] ) := by
      rcases hpad with rfl | rfl
      · right; rfl
      · left; rfl
    have : (pad.reverse ++ x.reverse).dropWhile isWsChar = x.reverse := by
      rcases hpad with rfl | rfl
      · simp only [List.reverse_nil, List.nil_append]
        exact dropWhile_of_headNotWs _ h2
      · simp only [List.reverse_cons, List.reverse_nil, List.nil_append,
          List.singleton_append]
        rw [List.dropWhile_cons]
        rw [if_pos (by decide)]
        exact dropWhile_of_headNotWs _ h2
    rw [this, List.reverse_reverse]

theorem headNotWs_append_left (x y : List Char) (hx : headNotWs x = true) :
    headNotWs (x ++ y) = true := by
  rcases x with _ | ⟨c, t⟩
  · simp [headNotWs] at hx
  · simpa [headNotWs] using hx

theorem wf_unit_clean (u : RawArg) (hwf : wfArg u = true)
    (hu : isJHArg u = false) :
    renderArg u ≠ [] ∧ headNotWs (renderArg u) = true ∧
      headNotWs (renderArg u).reverse = true := by
  rcases u with s | ⟨q, v⟩ | ⟨q, v⟩ | _ | _
  · simp only [wfArg, Bool.and_eq_true] at hwf
    refine ⟨?_, hwf.1.1, hwf.1.2⟩
    intro hc
    rw [show renderArg (RawArg.plain s) = s from rfl] at hc
    rw [hc] at hwf
    simp [headNotWs] at hwf
  · simp [isJHArg] at hu
  · simp [isJHArg] at hu
  · refine ⟨by decide, by decide, by decide⟩
  · refine ⟨by decide, by decide, by decide⟩

theorem renderArgs_ne_nil (args : List RawArg) (hne : args ≠ [])
    (h : ∀ u ∈ args, renderArg u ≠ []) : renderArgs args ≠ [] := by
  rcases args with _ | ⟨a, rest⟩
  · exact absurd rfl hne
  · rcases rest with _ | ⟨b, rest'⟩
    · exact h a (by simp)
    · rw [renderArgs_cons_cons]
      intro hc
      have := congrArg List.length hc
      simp only [List.length_append, List.length_cons, List.length_nil] at this
      omega

theorem renderArgs_clean (args : List RawArg)
    (h : ∀ u ∈ args, renderArg u ≠ [] ∧ headNotWs (renderArg u) = true ∧
      headNotWs (renderArg u).reverse = true) :
    renderArgs args = [] ∨
      (headNotWs (renderArgs args) = true ∧
        headNotWs (renderArgs args).reverse = true) := by
  induction args with
  | nil => left; rfl
  | cons a rest ih =>
    right
    rcases rest with _ | ⟨b, rest'⟩
    · exact ⟨(h a (by simp)).2.1, (h a (by simp)).2.2⟩
    · rw [renderArgs_cons_cons]
      constructor
      · exact headNotWs_append_left _ _ (h a (by simp)).2.1
      · rcases ih (fun u hu => h u (by simp [hu])) with hnil | ⟨_, hrev⟩
        · exact absurd hnil (renderArgs_ne_nil (b :: rest') (by simp)
            (fun u hu => (h u (by simp [hu])).1))
        · rw [List.reverse_append, List.reverse_cons, List.append_assoc]
          apply headNotWs_append_left
          exact hrev

theorem stage_da_traditional (args1 : List RawArg) (pad1 : List Char)
    (hpad1 : SpacePad pad1)
    (hwf : ∀ u ∈ args1, wfArg u = true)
    (hnjh : ∀ u ∈ args1, isJHArg u = false)
    (hda : (args1.filter isDisArg).length ≤ 1) :
    ∃ args2 pad2,
      (match strstrIdx DA (renderArgs args1 ++ pad1) with
       | none => renderArgs args1 ++ pad1
       | some _ => trimChars (removeFirstSub DA (renderArgs args1 ++ pad1))) =
        renderArgs args2 ++ pad2 ∧
      SpacePad pad2 ∧
      (∀ u ∈ args2, wfArg u = true) ∧ (∀ u ∈ args2, isJHArg u = false) ∧
      (∀ u ∈ args2, isDisArg u = false) ∧
      args2.filter isPlainArg = args1.filter isPlainArg ∧
      (args2.filter isEnaArg).length ≤ (args1.filter isEnaArg).length := by
  rcases filter_le_one_split isDisArg args1 hda with hnone |
    ⟨pre, u, post, rfl, hu, hpre, hpost⟩
  · have hocc : occursB DA (renderArgs args1 ++ pad1) = false :=
      occursB_append_pad DA _ pad1 (by decide) (by decide) hpad1
        (occursB_renderArgs_false DA (by decide) (by decide) args1
          (fun x hx => wf_unit_DA_free x (hwf x hx) (hnone x hx)))
    rw [strstrIdx_eq_none_of DA _ hocc]
    exact ⟨args1, pad1, rfl, hpad1, hwf, hnjh, hnone, rfl, le_refl _⟩
  · obtain rfl := isDis_eq u hu
    have hocc : occursB DA (renderArgs (pre ++ RawArg.dis :: post) ++ pad1) =
        true :=
      occursB_extend_pad DA _ pad1 (by decide) (by decide) hpad1
        (occursB_unit_present DA (by decide) (by decide) _ RawArg.dis
          (by simp) (by
            rw [show renderArg RawArg.dis = DA from rfl]
            unfold occursB
            rw [(strstrIdx_some_iff DA DA 0).mpr ⟨by
                simpa using isPrefOf_self_append DA [],
              fun j hj => absurd hj (Nat.not_lt_zero _)⟩]
            rfl))
    obtain ⟨i, hsome⟩ := strstrIdx_isSome_of DA _ hocc
    rw [hsome]
    obtain ⟨pad', heq, hpad'⟩ := step_remove_dis pre post pad1 hpad1
      (fun x hx => wf_unit_DA_free x (hwf x (by simp [hx])) (hpre x hx))
    rw [heq]
    have hwf2 : ∀ x ∈ pre ++ post, wfArg x = true := by
      intro x hx
      apply hwf
      rcases List.mem_append.mp hx with h | h <;> simp [h]
    have hnjh2 : ∀ x ∈ pre ++ post, isJHArg x = false := by
      intro x hx
      apply hnjh
      rcases List.mem_append.mp hx with h | h <;> simp [h]
    rw [trimChars_clean_pad _ pad' hpad'
      (renderArgs_clean _ (fun x hx => wf_unit_clean x (hwf2 x hx)
        (hnjh2 x hx)))]
    refine ⟨pre ++ post, [], by rw [List.append_nil], Or.inl rfl,
      hwf2, hnjh2, ?_, ?_, ?_⟩
    · intro x hx
      rcases List.mem_append.mp hx with h | h
      · exact hpre x h
      · exact hpost x h
    · rw [List.filter_append, List.filter_append,
        List.filter_cons_of_neg (by simp [isPlainArg])]
    · rw [List.filter_append, List.filter_append,
        List.filter_cons_of_neg (by simp [isEnaArg])]

theorem stage_en_traditional (args2 : List RawArg) (pad2 : List Char)
    (hpad2 : SpacePad pad2)
    (hwf : ∀ u ∈ args2, wfArg u = true)
    (hnjh : ∀ u ∈ args2, isJHArg u = false)
    (hnda : ∀ u ∈ args2, isDisArg u = false)
    (hen : (args2.filter isEnaArg).length ≤ 1) :
    ∃ args3 pad3,
      (match strstrIdx EN (renderArgs args2 ++ pad2) with
       | none => renderArgs args2 ++ pad2
       | some _ => trimChars (removeFirstSub EN (renderArgs args2 ++ pad2))) =
        renderArgs args3 ++ pad3 ∧
      SpacePad pad3 ∧
      (∀ u ∈ args3, wfArg u = true) ∧ (∀ u ∈ args3, isJHArg u = false) ∧
      (∀ u ∈ args3, isDisArg u = false) ∧ (∀ u ∈ args3, isEnaArg u = false) ∧
      args3.filter isPlainArg = args2.filter isPlainArg := by
  rcases filter_le_one_split isEnaArg args2 hen with hnone |
    ⟨pre, u, post, rfl, hu, hpre, hpost⟩
  · have hocc : occursB EN (renderArgs args2 ++ pad2) = false :=
      occursB_append_pad EN _ pad2 (by decide) (by decide) hpad2
        (occursB_renderArgs_false EN (by decide) (by decide) args2
          (fun x hx => wf_unit_EN_free x (hwf x hx) (hnone x hx)))
    rw [strstrIdx_eq_none_of EN _ hocc]
    exact ⟨args2, pad2, rfl, hpad2, hwf, hnjh, hnda, hnone, rfl⟩
  · obtain rfl := isEna_eq u hu
    have hocc : occursB EN (renderArgs (pre ++ RawArg.ena :: post) ++ pad2) =
        true :=
      occursB_extend_pad EN _ pad2 (by decide) (by decide) hpad2
        (occursB_unit_present EN (by decide) (by decide) _ RawArg.ena
          (by simp) (by
            rw [show renderArg RawArg.ena = EN from rfl]
            unfold occursB
            rw [(strstrIdx_some_iff EN EN 0).mpr ⟨by
                simpa using isPrefOf_self_append EN [],
              fun j hj => absurd hj (Nat.not_lt_zero _)⟩]
            rfl))
    obtain ⟨i, hsome⟩ := strstrIdx_isSome_of EN _ hocc
    rw [hsome]
    obtain ⟨pad', heq, hpad'⟩ := step_remove_ena pre post pad2 hpad2
      (fun x hx => wf_unit_EN_free x (hwf x (by simp [hx])) (hpre x hx))
    rw [heq]
    have hwf2 : ∀ x ∈ pre ++ post, wfArg x = true := by
      intro x hx
      apply hwf
      rcases List.mem_append.mp hx with h | h <;> simp [h]
    have hnjh2 : ∀ x ∈ pre ++ post, isJHArg x = false := by
      intro x hx
      apply hnjh
      rcases List.mem_append.mp hx with h | h <;> simp [h]
    rw [trimChars_clean_pad _ pad' hpad'
      (renderArgs_clean _ (fun x hx => wf_unit_clean x (hwf2 x hx)
        (hnjh2 x hx)))]
    refine ⟨pre ++ post, [], by rw [List.append_nil], Or.inl rfl,
      hwf2, hnjh2, ?_, ?_, ?_⟩
    · intro x hx
      apply hnda
      rcases List.mem_append.mp hx with h | h <;> simp [h]
    · intro x hx
      rcases List.mem_append.mp hx with h | h
      · exact hpre x h
      · exact hpost x h
    · rw [List.filter_append, List.filter_append,
        List.filter_cons_of_neg (by simp [isPlainArg])]

theorem occursB_plain_args_pad (pat : List Char) (hsp : ' ' ∉ pat)
    (hne : pat ≠ []) (args : List RawArg) (pad : List Char)
    (hpad : SpacePad pad)
    (hfree : ∀ u ∈ args, occursB pat (renderArg u) = false) :
    occursB pat (renderArgs args ++ pad) = false :=
  occursB_append_pad pat _ pad hsp hne hpad
    (occursB_renderArgs_false pat hsp hne args hfree)

/-- C2 (amended).  For any combination and ordering of argument units in
which each internal flag occurs at most once — the runtime-home override in
any one of its four syntactic forms (equals or space form, value quoted or
unquoted), `--enable-aot`, `--disable-aot` — both stripping passes of
`main` (config mode, lines 828-845, and traditional mode, lines 917-936)
remove exactly the internal flags and their values: the result is the
remaining arguments joined by their original single-space separators (up to
the launcher's own final `trim`), and none of the three flag substrings
occurs in the stripped string handed to command composition. -/
theorem strip_internal_flags_complete (args : List RawArg)
    (hwf : ∀ u ∈ args, wfArg u = true)
    (hjh : (args.filter isJHArg).length ≤ 1)
    (hda : (args.filter isDisArg).length ≤ 1)
    (hen : (args.filter isEnaArg).length ≤ 1) :
    stripFlagsConfig (renderArgs args) = renderArgs (args.filter isPlainArg) ∧
    trimChars (stripFlagsTraditional (renderArgs args)) =
      renderArgs (args.filter isPlainArg) ∧
    occursB JH (stripFlagsConfig (renderArgs args)) = false ∧
    occursB EN (stripFlagsConfig (renderArgs args)) = false ∧
    occursB DA (stripFlagsConfig (renderArgs args)) = false ∧
    occursB JH (stripFlagsTraditional (renderArgs args)) = false ∧
    occursB EN (stripFlagsTraditional (renderArgs args)) = false ∧
    occursB DA (stripFlagsTraditional (renderArgs args)) = false := by
  obtain ⟨args1, pad1, h1, hp1, hwf1, hnjh1, hplain1, hda1, hen1⟩ :=
    stage_jh args hwf hjh
  -- config-mode chain
  obtain ⟨args2, pad2, h2, hp2, hwf2, hnjh2, hnda2, hplain2, hen2⟩ :=
    stage_da args1 pad1 hp1 hwf1 hnjh1 (le_trans hda1 hda)
  obtain ⟨args3, pad3, h3, hp3, hwf3, hnjh3, hnda3, hnen3, hplain3⟩ :=
    stage_en args2 pad2 hp2 hwf2 hnjh2 hnda2 (le_trans hen2 (le_trans hen1 hen))
  have hall3 : ∀ u ∈ args3, isPlainArg u = true := fun u hu =>
    all_flags_false_plain u (hnjh3 u hu) (hnda3 u hu) (hnen3 u hu)
  have hargs3 : args3 = args.filter isPlainArg := by
    rw [← List.filter_eq_self.mpr hall3, hplain3, hplain2, hplain1]
  have hcfg : stripFlagsConfig (renderArgs args) = renderArgs args3 := by
    unfold stripFlagsConfig
    rw [h1, h2, h3]
    exact trimChars_clean_pad _ pad3 hp3
      (renderArgs_clean _ (fun x hx => wf_unit_clean x (hwf3 x hx)
        (hnjh3 x hx)))
  -- traditional-mode chain
  obtain ⟨args2t, pad2t, h2t, hp2t, hwf2t, hnjh2t, hnda2t, hplain2t, hen2t⟩ :=
    stage_da_traditional args1 pad1 hp1 hwf1 hnjh1 (le_trans hda1 hda)
  obtain ⟨args3t, pad3t, h3t, hp3t, hwf3t, hnjh3t, hnda3t, hnen3t, hplain3t⟩ :=
    stage_en_traditional args2t pad2t hp2t hwf2t hnjh2t hnda2t
      (le_trans hen2t (le_trans hen1 hen))
  have hall3t : ∀ u ∈ args3t, isPlainArg u = true := fun u hu =>
    all_flags_false_plain u (hnjh3t u hu) (hnda3t u hu) (hnen3t u hu)
  have hargs3t : args3t = args.filter isPlainArg := by
    rw [← List.filter_eq_self.mpr hall3t, hplain3t, hplain2t, hplain1]
  have htrad : stripFlagsTraditional (renderArgs args) =
      renderArgs args3t ++ pad3t := by
    simp only [stripFlagsTraditional]
    rw [h1, h2t, h3t]
  have hfree3 : ∀ pat, pat = JH ∨ pat = EN ∨ pat = DA →
      ∀ u ∈ args3, occursB pat (renderArg u) = false := by
    intro pat hpat u hu
    rcases hpat with rfl | rfl | rfl
    · exact wf_unit_JH_free u (hwf3 u hu) (hnjh3 u hu)
    · exact wf_unit_EN_free u (hwf3 u hu) (hnen3 u hu)
    · exact wf_unit_DA_free u (hwf3 u hu) (hnda3 u hu)
  have hfree3t : ∀ pat, pat = JH ∨ pat = EN ∨ pat = DA →
      ∀ u ∈ args3t, occursB pat (renderArg u) = false := by
    intro pat hpat u hu
    rcases hpat with rfl | rfl | rfl
    · exact wf_unit_JH_free u (hwf3t u hu) (hnjh3t u hu)
    · exact wf_unit_EN_free u (hwf3t u hu) (hnen3t u hu)
    · exact wf_unit_DA_free u (hwf3t u hu) (hnda3t u hu)
  refine ⟨by rw [hcfg, hargs3], ?_, ?_, ?_, ?_, ?_, ?_, ?_⟩
  · rw [htrad]
    rw [trimChars_clean_pad _ pad3t hp3t
      (renderArgs_clean _ (fun x hx => wf_unit_clean x (hwf3t x hx)
        (hnjh3t x hx)))]
    rw [hargs3t]
  · rw [hcfg, ← List.append_nil (renderArgs args3)]
    exact occursB_plain_args_pad JH (by decide) (by decide) args3 []
      (Or.inl rfl) (hfree3 JH (Or.inl rfl))
  · rw [hcfg, ← List.append_nil (renderArgs args3)]
    exact occursB_plain_args_pad EN (by decide) (by decide) args3 []
      (Or.inl rfl) (hfree3 EN (Or.inr (Or.inl rfl)))
  · rw [hcfg, ← List.append_nil (renderArgs args3)]
    exact occursB_plain_args_pad DA (by decide) (by decide) args3 []
      (Or.inl rfl) (hfree3 DA (Or.inr (Or.inr rfl)))
  · rw [htrad]
    exact occursB_plain_args_pad JH (by decide) (by decide) args3t pad3t
      hp3t (hfree3t JH (Or.inl rfl))
  · rw [htrad]
    exact occursB_plain_args_pad EN (by decide) (by decide) args3t pad3t
      hp3t (hfree3t EN (Or.inr (Or.inl rfl)))
  · rw [htrad]
    exact occursB_plain_args_pad DA (by decide) (by decide) args3t pad3t
      hp3t (hfree3t DA (Or.inr (Or.inr rfl)))

/-- Witness for C2 at a concrete invocation carrying all three internal
flags (java-home in equals form) around two ordinary arguments. -/
theorem strip_internal_flags_complete_witness :
    stripFlagsConfig (renderArgs
        [RawArg.plain "app.jar".data, RawArg.jhEq false "C:\\jdk".data,
          RawArg.dis, RawArg.plain "--verbose".data, RawArg.ena]) =
      renderArgs [RawArg.plain "app.jar".data,
        RawArg.plain "--verbose".data] ∧
    occursB JH (stripFlagsTraditional (renderArgs
        [RawArg.plain "app.jar".data, RawArg.jhEq false "C:\\jdk".data,
          RawArg.dis, RawArg.plain "--verbose".data, RawArg.ena])) = false := by
  have h := strip_internal_flags_complete
    [RawArg.plain "app.jar".data, RawArg.jhEq false "C:\\jdk".data,
      RawArg.dis, RawArg.plain "--verbose".data, RawArg.ena]
    (by decide) (by decide) (by decide) (by decide)
  exact ⟨by rw [h.1]; decide, h.2.2.2.2.2.1⟩

/-- Counterexample for C2 as stated: when the runtime-home override appears
in both of its syntactic forms (a combination of the listed flags), only the
first occurrence is stripped, and `--java-home` together with its value
reaches the final command line composed for the process supervisor. -/
theorem strip_internal_flags_counterexample :
    occursB JH (stripFlagsTraditional
      "--java-home=C:\\a --java-home C:\\b app.jar".data) = true ∧
    occursB JH (stripFlagsConfig
      "--java-home=C:\\a --java-home C:\\b app.jar".data) = true ∧
    occursB JH (composeTraditionalCmd "C:\\jdk\\bin\\java.exe".data
      "-Djarrunner.start.micros=5 -Djarrunner.beforejvm.micros=9".data []
      (stripFlagsTraditional
        "--java-home=C:\\a --java-home C:\\b app.jar".data)) = true := by
  refine ⟨by decide, by decide, by decide⟩

/-! ## First-occurrence-only behaviour of the stripping pass -/

theorem jh_unit_occurs (u : RawArg) (h : isJHArg u = true) :
    occursB JH (renderArg u) = true := by
  have hpref : isPrefOf JH (renderArg u) = true := by
    rcases u with s | ⟨q, v⟩ | ⟨q, v⟩ | _ | _
    · simp [isJHArg] at h
    · rcases q with _ | _
      · rw [show renderArg (RawArg.jhEq false v) = JHE ++ v from rfl,
          show JHE = JH ++ ['='] from rfl, List.append_assoc]
        exact isPrefOf_self_append JH _
      · rw [show renderArg (RawArg.jhEq true v) =
          JHE ++ ('"' :: v) ++ ['"'] from rfl,
          show JHE = JH ++ ['='] from rfl, List.append_assoc,
          List.append_assoc]
        exact isPrefOf_self_append JH _
    · rcases q with _ | _
      · exact isPrefOf_self_append JH _
      · rw [show renderArg (RawArg.jhSp true v) =
          JH ++ ' ' :: '"' :: v ++ ['"'] from rfl]
        exact isPrefOf_self_append JH _
    · simp [isJHArg] at h
    · simp [isJHArg] at h
  exact (occursB_iff JH _).mpr ⟨0, by simpa using hpref⟩

/-- C10.  The flag-stripping pass removes at most the first occurrence of
each internal flag: a single `--enable-aot`/`--disable-aot` removal erases
exactly the first such unit and a second occurrence survives in the output;
`removeJavaHomeArg` removes the first `--java-home` (with its value) and a
second `--java-home` unit survives; and the removal acts at the first
*substring* occurrence, even inside an unrelated argument's text:
`--java-homework app.jar` loses the whole token `--java-homework` (its tail
`work` is consumed as the value), and in `x--java-home y z` the occurrence
inside `x--java-home` is removed together with the following value token
`y`, splicing `x` and `z` together. -/
theorem strip_first_substring_occurrence_only :
    (∀ pre mid post : List RawArg,
      (∀ u ∈ pre, wfArg u = true) → (∀ u ∈ pre, isEnaArg u = false) →
      occursB EN (removeFirstSub EN
        (renderArgs (pre ++ RawArg.ena :: (mid ++ RawArg.ena :: post)))) =
        true) ∧
    (∀ pre mid post : List RawArg,
      (∀ u ∈ pre, wfArg u = true) → (∀ u ∈ pre, isDisArg u = false) →
      occursB DA (removeFirstSub DA
        (renderArgs (pre ++ RawArg.dis :: (mid ++ RawArg.dis :: post)))) =
        true) ∧
    (∀ (pre mid post : List RawArg) (u1 u2 : RawArg),
      (∀ u ∈ pre, wfArg u = true) → (∀ u ∈ pre, isJHArg u = false) →
      isJHArg u1 = true → wfArg u1 = true → isJHArg u2 = true →
      occursB JH (removeJavaHomeArg
        (renderArgs (pre ++ u1 :: (mid ++ u2 :: post)))) = true) ∧
    removeJavaHomeArg "--java-homework app.jar".data = "app.jar".data ∧
    removeJavaHomeArg "x--java-home y z".data = "xz".data := by
  refine ⟨?_, ?_, ?_, by decide, by decide⟩
  · intro pre mid post hwf hnena
    obtain ⟨pad', heq, hpad'⟩ := step_remove_ena pre
      (mid ++ RawArg.ena :: post) [] (Or.inl rfl)
      (fun x hx => wf_unit_EN_free x (hwf x hx) (hnena x hx))
    rw [List.append_nil] at heq
    rw [heq]
    exact occursB_extend_pad EN _ pad' (by decide) (by decide) hpad'
      (occursB_unit_present EN (by decide) (by decide) _ RawArg.ena
        (by simp) (by
          rw [show renderArg RawArg.ena = EN from rfl]
          exact (occursB_iff EN EN).mpr ⟨0, by
            simpa using isPrefOf_self_append EN []⟩))
  · intro pre mid post hwf hndis
    obtain ⟨pad', heq, hpad'⟩ := step_remove_dis pre
      (mid ++ RawArg.dis :: post) [] (Or.inl rfl)
      (fun x hx => wf_unit_DA_free x (hwf x hx) (hndis x hx))
    rw [List.append_nil] at heq
    rw [heq]
    exact occursB_extend_pad DA _ pad' (by decide) (by decide) hpad'
      (occursB_unit_present DA (by decide) (by decide) _ RawArg.dis
        (by simp) (by
          rw [show renderArg RawArg.dis = DA from rfl]
          exact (occursB_iff DA DA).mpr ⟨0, by
            simpa using isPrefOf_self_append DA []⟩))
  · intro pre mid post u1 u2 hwf hnjh hu1 hwfu1 hu2
    obtain ⟨pad', heq, hpad'⟩ := step_remove_jh pre
      (mid ++ u2 :: post) u1 [] (Or.inl rfl) hu1 hwfu1
      (fun x hx => wf_unit_JH_free x (hwf x hx) (hnjh x hx))
    rw [List.append_nil] at heq
    rw [heq]
    exact occursB_extend_pad JH _ pad' (by decide) (by decide) hpad'
      (occursB_unit_present JH (by decide) (by decide) _ u2
        (by simp) (jh_unit_occurs u2 hu2))

/-- Witness for C10 at concrete argument lists with duplicated flags. -/
theorem strip_first_substring_occurrence_only_witness :
    occursB EN (removeFirstSub EN (renderArgs
      ([RawArg.plain "a.jar".data] ++ RawArg.ena ::
        ([] ++ RawArg.ena :: [])))) = true ∧
    occursB JH (removeJavaHomeArg (renderArgs
      ([] ++ RawArg.jhEq false "C:\\a".data ::
        ([] ++ RawArg.jhSp false "C:\\b".data :: [])))) = true :=
  ⟨strip_first_substring_occurrence_only.1 [RawArg.plain "a.jar".data] [] []
    (by decide) (by decide),
   strip_first_substring_occurrence_only.2.2.1 [] [] []
    (RawArg.jhEq false "C:\\a".data) (RawArg.jhSp false "C:\\b".data)
    (by decide) (by decide) (by decide) (by decide) (by decide)⟩

/-! ## The missing-target gate of traditional mode (spec claim C5) -/

/-- C5 (amended).  The traditional-mode branch of `main` decides between
the usage/diagnostic path and spawning by testing the *raw* argument string
— before any internal-flag stripping: it shows the help text and returns
exit code 1 without spawning exactly when nothing follows the executable
name (after skipping spaces); whenever any raw argument is present, even
one that the stripping pass removes entirely, it spawns a process whose
command embeds the stripped (possibly empty) argument string. -/
theorem traditional_gate_checks_raw_args
    (javaPath timingProps aotArg rawArgs : List Char) :
    (traditionalAction javaPath timingProps aotArg rawArgs =
        TradAction.showHelpExit1 ↔
      rawArgs.dropWhile (fun c => c = ' ') = []) ∧
    (tradActionNoSpawnExit
        (traditionalAction javaPath timingProps aotArg rawArgs) = some 1 ↔
      rawArgs.dropWhile (fun c => c = ' ') = []) ∧
    (∀ cmd, traditionalAction javaPath timingProps aotArg rawArgs =
        TradAction.spawn cmd →
      rawArgs.dropWhile (fun c => c = ' ') ≠ [] ∧
      cmd = composeTraditionalCmd javaPath timingProps aotArg
        (stripFlagsTraditional (rawArgs.dropWhile (fun c => c = ' ')))) := by
  unfold traditionalAction
  by_cases h : rawArgs.dropWhile (fun c => c = ' ') = []
  · rw [if_pos h]
    refine ⟨by simp [h], by simp [tradActionNoSpawnExit, h], ?_⟩
    intro cmd hc
    exact absurd hc (by simp)
  · rw [if_neg h]
    refine ⟨by simp [h], by simp [tradActionNoSpawnExit, h], ?_⟩
    intro cmd hc
    simp only [TradAction.spawn.injEq] at hc
    exact ⟨h, hc.symm⟩

/-- Counterexample for C5 as stated: invoked with only `--disable-aot`,
stripping leaves no target at all, yet the launcher does not take the
usage/exit-1 path — it spawns `java ... -jar` with an empty tail. -/
theorem traditional_gate_counterexample :
    stripFlagsTraditional
      ("--disable-aot".data.dropWhile (fun c => c = ' ')) = [] ∧
    traditionalAction "C:\\jdk\\bin\\java.exe".data
        "-Djarrunner.start.micros=5 -Djarrunner.beforejvm.micros=9".data []
        "--disable-aot".data =
      TradAction.spawn (composeTraditionalCmd "C:\\jdk\\bin\\java.exe".data
        "-Djarrunner.start.micros=5 -Djarrunner.beforejvm.micros=9".data
        [] []) := by
  refine ⟨by decide, by decide⟩

/-! ## Extraction of the runtime-home override (spec claim C7) -/

theorem takeEqValue_unquoted (v r : List Char) (hne : v ≠ [])
    (hq : v.headD ' ' ≠ '"') (hv : ∀ c ∈ v, c ≠ ' ')
    (hr : r = [] ∨ ∃ t, r = ' ' :: t) :
    takeEqValue (v ++ r) = some v := by
  rcases v with _ | ⟨c, v'⟩
  · exact absurd rfl hne
  · have hc : c ≠ '"' := by simpa using hq
    unfold takeEqValue
    split
    · rename_i t heq
      rw [List.cons_append] at heq
      exact absurd (List.head_eq_of_cons_eq heq.symm).symm hc
    · rw [takeWhile_nonspace_append _ r hv hr]

theorem takeEqValue_quoted (v r : List Char) (hv : ∀ c ∈ v, c ≠ '"') :
    takeEqValue ('"' :: (v ++ '"' :: r)) = some v := by
  have h0 : takeEqValue ('"' :: (v ++ '"' :: r)) =
      (match strchrIdx '"' (v ++ '"' :: r) with
       | some j => some ((v ++ '"' :: r).take j)
       | none => none) := rfl
  rw [h0, strchrIdx_append_first '"' v r hv]
  simp only []
  rw [List.take_append_eq_append_take]
  simp

theorem extractJavaHome_eq_of_strstrJHE (s : List Char) (i : Nat)
    (h : strstrIdx JHE s = some i) :
    extractJavaHome s = takeEqValue (s.drop (i + 12)) := by
  unfold extractJavaHome
  rw [h]

theorem extractJavaHome_eq_of_strstrJHSP (s : List Char) (i : Nat)
    (h1 : strstrIdx JHE s = none) (h2 : strstrIdx JHSP s = some i) :
    extractJavaHome s =
      some ((s.drop (i + 12)).takeWhile (fun c => c ≠ ' ')) := by
  unfold extractJavaHome
  rw [h1, h2]

/-- C7 (amended).  The extracted override value is exactly the supplied
path for three of the four syntactic forms: `--java-home=value`,
`--java-home="value"` (even a value containing spaces), and
`--java-home value` with an unquoted value.  For the fourth form,
`--java-home "value"`, the space-form branch has no quote handling: the
extracted string is the raw token up to the first space, so it carries the
opening quote and (for a space-free value) the closing quote — not the
supplied path. -/
theorem extractJavaHome_forms
    (pre v rest : List Char)
    (hsep : pre = [] ∨ ∃ a', pre = a' ++ [' '])
    (hrest : rest = [] ∨ ∃ t, rest = ' ' :: t) :
    (occursB JHE pre = false → v ≠ [] → (∀ c ∈ v, c ≠ ' ') →
      v.headD ' ' ≠ '"' →
      extractJavaHome (pre ++ (JHE ++ v) ++ rest) = some v) ∧
    (occursB JHE pre = false → (∀ c ∈ v, c ≠ '"') →
      extractJavaHome (pre ++ (JHE ++ ('"' :: v) ++ ['"']) ++ rest) =
        some v) ∧
    (∀ (s : List Char) (i : Nat), strstrIdx JHE s = none →
      strstrIdx JHSP s = some i → s.drop i = JHSP ++ (v ++ rest) →
      v ≠ [] → (∀ c ∈ v, c ≠ ' ') →  v.headD ' ' ≠ '"' →
      extractJavaHome s = some v) ∧
    (∀ (s : List Char) (i : Nat), strstrIdx JHE s = none →
      strstrIdx JHSP s = some i →
      s.drop i = JHSP ++ ('"' :: v) ++ '"' :: rest →
      (∀ c ∈ v, c ≠ ' ') → (∀ c ∈ v, c ≠ '"') →
      extractJavaHome s = some ('"' :: v ++ ['"'])) := by
  refine ⟨?_, ?_, ?_, ?_⟩
  · intro hpre hne hsp hq
    have hidx := strstrIdx_junction JHE pre (JHE ++ v) rest (by decide)
      (by decide) (isPrefOf_self_append JHE v) hpre hsep
    rw [extractJavaHome_eq_of_strstrJHE _ _ hidx]
    have hdrop : (pre ++ (JHE ++ v) ++ rest).drop (pre.length + 12) =
        v ++ rest := by
      rw [List.append_assoc, ← List.drop_drop]
      rw [List.drop_left pre _]
      rw [List.append_assoc]
      rw [show (12 : Nat) = JHE.length from rfl]
      exact List.drop_left JHE _
    rw [hdrop]
    exact takeEqValue_unquoted v rest hne hq hsp hrest
  · intro hpre hv
    have hpref : isPrefOf JHE (JHE ++ ('"' :: v) ++ ['"']) = true := by
      rw [List.append_assoc]
      exact isPrefOf_self_append JHE _
    have hidx := strstrIdx_junction JHE pre (JHE ++ ('"' :: v) ++ ['"'])
      rest (by decide) (by decide) hpref hpre hsep
    rw [extractJavaHome_eq_of_strstrJHE _ _ hidx]
    have hdrop : (pre ++ (JHE ++ ('"' :: v) ++ ['"']) ++ rest).drop
        (pre.length + 12) = '"' :: (v ++ '"' :: rest) := by
      rw [List.append_assoc, ← List.drop_drop]
      rw [List.drop_left pre _]
      rw [List.append_assoc, List.append_assoc]
      rw [show (12 : Nat) = JHE.length from rfl]
      rw [List.drop_left JHE _]
      simp
    rw [hdrop]
    exact takeEqValue_quoted v rest hv
  · intro s i hnoeq hidx hdrop hne hsp hq
    rw [extractJavaHome_eq_of_strstrJHSP _ _ hnoeq hidx]
    have hdrop2 : s.drop (i + 12) = v ++ rest := by
      rw [← List.drop_drop, hdrop]
      rw [show (12 : Nat) = JHSP.length from rfl]
      exact List.drop_left JHSP _
    rw [hdrop2]
    rw [takeWhile_nonspace_append v rest hsp hrest]
  · intro s i hnoeq hidx hdrop hsp hq
    rw [extractJavaHome_eq_of_strstrJHSP _ _ hnoeq hidx]
    have hdrop2 : s.drop (i + 12) = ('"' :: v ++ ['"']) ++ rest := by
      rw [← List.drop_drop, hdrop]
      rw [List.append_assoc]
      rw [show (12 : Nat) = JHSP.length from rfl]
      rw [List.drop_left JHSP _]
      simp
    rw [hdrop2]
    rw [takeWhile_nonspace_append _ rest (by
      intro c hc
      rcases List.mem_cons.mp hc with rfl | hc2
      · decide
      · rcases List.mem_append.mp hc2 with h | h
        · exact hsp c h
        · rcases List.mem_singleton.mp h with rfl
          decide) hrest]

/-- Witness for C7 at concrete command lines for the three exact forms and
the quoted space form. -/
theorem extractJavaHome_forms_witness :
    extractJavaHome ("jr.exe ".data ++ (JHE ++ "C:\\jdk".data) ++
        " app.jar".data) = some "C:\\jdk".data ∧
    extractJavaHome ("jr.exe ".data ++
        (JHE ++ ('"' :: "C:\\my jdk".data) ++ ['"']) ++ " app.jar".data) =
      some "C:\\my jdk".data := by
  have h := extractJavaHome_forms "jr.exe ".data "C:\\jdk".data
    " app.jar".data (Or.inr ⟨"jr.exe".data, by decide⟩)
    (Or.inr ⟨"app.jar".data, rfl⟩)
  have h2 := extractJavaHome_forms "jr.exe ".data "C:\\my jdk".data
    " app.jar".data (Or.inr ⟨"jr.exe".data, by decide⟩)
    (Or.inr ⟨"app.jar".data, rfl⟩)
  exact ⟨h.1 (by decide) (by decide) (by decide) (by decide),
    h2.2.1 (by decide) (by decide)⟩

/-- Counterexample for C7 as stated: with the space form and a quoted
value, the extracted string is `"C:\jdk"` — quote characters included —
rather than the supplied path `C:\jdk`; with a space inside the quoted
value it is additionally truncated at the space. -/
theorem extractJavaHome_counterexample :
    extractJavaHome "jr.exe --java-home \"C:\\jdk\" app.jar".data =
      some "\"C:\\jdk\"".data ∧
    "\"C:\\jdk\"".data ≠ "C:\\jdk".data ∧
    extractJavaHome "jr.exe --java-home \"C:\\my jdk\" app.jar".data =
      some "\"C:\\my".data := by
  refine ⟨by decide, by decide, by decide⟩

/-- Witness for C5 at concrete inputs: a blank raw argument string takes
the help/exit-1 path; a present argument does not. -/
theorem traditional_gate_checks_raw_args_witness :
    traditionalAction "C:\\j".data "-Dt=1".data [] "  ".data =
      TradAction.showHelpExit1 ∧
    "app.jar".data.dropWhile (fun c => c = ' ') ≠ [] :=
  ⟨(traditional_gate_checks_raw_args "C:\\j".data "-Dt=1".data []
      "  ".data).1.mpr (by decide),
    ((traditional_gate_checks_raw_args "C:\\j".data "-Dt=1".data []
        "app.jar".data).2.2
      (composeTraditionalCmd "C:\\j".data "-Dt=1".data []
        (stripFlagsTraditional
          ("app.jar".data.dropWhile (fun c => c = ' '))))
      (by decide)).1⟩

/-- Witness for C9 at concrete flag values: attach succeeding gives the
hide-free-attach-show trace with interactive mode; attach failing reports
GUI mode. -/
theorem isGuiMode_order_and_result_witness :
    (isGuiMode true true true).1 =
      [ConsoleEvent.hideWindow, ConsoleEvent.freeConsole,
        ConsoleEvent.attachParent, ConsoleEvent.showWindow] ∧
    (isGuiMode true false false).2 = true := by
  constructor
  · exact (isGuiMode_order_and_result true true true).1.trans (by decide)
  · have h := (isGuiMode_order_and_result true false false).2.1
    rcases hb : (isGuiMode true false false).2 with _ | _
    · exact absurd (h.mp hb) (by decide)
    · rfl
